import Mathlib

/-!
Verification development for the qmkpy quadratic multiple knapsack (QMKP) solver.

The Python source (modules `qmkpy.checks`, `qmkpy.util`, `qmkpy.qmkp`,
`qmkpy.algorithms`) is embedded shallowly:

* numpy 2-D arrays of shape `N×K` become functions `Fin N → Fin K → ℚ`
  (numpy floats are modelled as rationals, which the sources treat as exact
  reals; no claim concerns floating-point rounding);
* functions that can `raise ValueError` return `Except String _`, carrying the
  exact message of the source;
* `np.random` draws are threaded as explicit oracle parameters (a permutation,
  boolean streams, index streams), so theorems quantify over every possible
  sequence of random choices;
* `while` loops become fuel recursion; for the constructive procedure the fuel
  `N` is enough because each guarded iteration assigns one more item (proved
  below), for the FCS loop the fuel is universally quantified.

Static shapes: the numpy shape checks of the source (`np.shape(x) == (n, k)`)
are enforced by the `Fin`-indexed types except in `is_feasible_solution`,
which is embedded over plain `List (List ℚ)` precisely so that its
shape-mismatch branch is representable.
-/

attribute [local semireducible] Rat.add Rat.mul Rat.sub Rat.inv

/-- Decidable equality on `Except`, by constructor analysis (kept
kernel-reducible so that concrete runs can be settled by `decide`). -/
def exceptDecEq {ε α : Type _} [DecidableEq ε] [DecidableEq α] :
    DecidableEq (Except ε α)
  | .error e1, .error e2 =>
    match decEq e1 e2 with
    | isTrue h => isTrue (congrArg Except.error h)
    | isFalse h => isFalse (fun hh => h (Except.error.inj hh))
  | .error _, .ok _ => isFalse (fun hh => Except.noConfusion hh)
  | .ok _, .error _ => isFalse (fun hh => Except.noConfusion hh)
  | .ok a1, .ok a2 =>
    match decEq a1 a2 with
    | isTrue h => isTrue (congrArg Except.ok h)
    | isFalse h => isFalse (fun hh => h (Except.ok.inj hh))

instance {ε α : Type _} [DecidableEq ε] [DecidableEq α] : DecidableEq (Except ε α) :=
  exceptDecEq

namespace QMKPy

/-- A (profit or assignment) matrix with `N` rows and `K` columns. -/
abbrev Mat (N K : ℕ) := Fin N → Fin K → ℚ

/-- `checks.is_binary`: every element of the array is 0 or 1. -/
def is_binary {N K : ℕ} (x : Mat N K) : Bool :=
  decide (∀ i : Fin N, ∀ k : Fin K, x i k = 0 ∨ x i k = 1)

/-- `checks.is_binary` on a plain list-of-rows array (the form taken by
`is_feasible_solution`, where the shape is not statically known). -/
def is_binary_list (x : List (List ℚ)) : Bool :=
  x.all (fun row => row.all (fun v => decide (v = 0 ∨ v = 1)))

/-- The load `(weights @ assignments)[k]` of knapsack `k`. -/
def knapsack_load {N K : ℕ} (weights : Fin N → ℚ) (assignments : Mat N K)
    (k : Fin K) : ℚ :=
  ∑ i, weights i * assignments i k

/-- The load vector `weights @ assignments` of `is_feasible_solution`,
entry `k` being the weighted column sum (missing entries of a ragged row read
as 0; the branch is reached only with the shape already checked). -/
def list_loads (weights : List ℚ) (assignments : List (List ℚ)) (num_ks : ℕ) :
    List ℚ :=
  (List.range num_ks).map
    (fun k => ((weights.zip assignments).map (fun p => p.1 * p.2.getD k 0)).sum)

/-- `checks.is_feasible_solution`.  Mirrors the source exactly: the first
three checks sequentially overwrite `error_msg` (plain `if`, not `elif`), the
capacity check runs only when the first three passed.  `raise_error = true`
turns the message into `.error`, otherwise the function returns `.ok false`
on a violation and `.ok true` otherwise.  `profits` is accepted and unused,
as in the source. -/
def is_feasible_solution (assignments : List (List ℚ)) (profits : List (List ℚ))
    (weights : List ℚ) (capacities : List ℚ) (raise_error : Bool) :
    Except String Bool :=
  let _ := profits
  let num_items := weights.length
  let num_ks := capacities.length
  let msg0 : Option String := none
  let msg1 : Option String :=
    if ¬ (assignments.length = num_items ∧ ∀ row ∈ assignments, row.length = num_ks) then
      some "There is a mismatch of dimensions of the assigment matrix. It needs to be (num_items x num_knapsacks)."
    else msg0
  let msg2 : Option String :=
    if ¬ is_binary_list assignments then some "The assignment matrix needs to be binary."
    else msg1
  let msg3 : Option String :=
    if ∃ row ∈ assignments, 1 < row.sum then some "Each element can only by assigned at most once."
    else msg2
  match msg3 with
  | some m => if raise_error then .error m else .ok false
  | none =>
    let loads : List ℚ := list_loads weights assignments num_ks
    if ∃ p ∈ loads.zip capacities, p.2 < p.1 then
      if raise_error then .error "The capacity constraint is violated"
      else .ok false
    else .ok true

/-- `util.get_unassigned_items` on the binary-matrix form, also the
`unassigned_items` output of `util.value_density`: the (ascending) indices of
the items whose assignment row is all zero (`~np.any(assignments, axis=1)`). -/
def unassigned_items {N K : ℕ} (assignments : Mat N K) : List (Fin N) :=
  (List.finRange N).filter (fun i => decide (∀ k : Fin K, assignments i k = 0))

/-- `util.value_density` on the binary-matrix form of `assignments` (the only
form the algorithms under verification use; the flat item-list convenience
branch of the source is not embedded).  Entry `(i, k)` of
`(profits @ assignments + diag(diag(profits)) @ (1 - assignments)) / weights[:, None]`. -/
def value_density {N K : ℕ} (profits : Fin N → Fin N → ℚ) (weights : Fin N → ℚ)
    (assignments : Mat N K) : Mat N K :=
  fun i k =>
    ((∑ j, profits i j * assignments j k) + profits i i * (1 - assignments i k))
      / weights i

/-- `util.value_density` with `reduced_output=True`: the density rows of the
unassigned items, paired with the list of those items' indices. -/
def value_density_reduced {N K : ℕ} (profits : Fin N → Fin N → ℚ)
    (weights : Fin N → ℚ) (assignments : Mat N K) :
    List (Fin K → ℚ) × List (Fin N) :=
  ((unassigned_items assignments).map (fun i => value_density profits weights assignments i),
   unassigned_items assignments)

/-- `util.chromosome_from_assignment`.  The source writes, for every index
pair with `assignments == 1` in row-major order, the knapsack index into the
chromosome (later writes win); per item this is the last `k` with
`assignments i k = 1`, and `-1` when the row has no 1. -/
def chromosome_from_assignment {N K : ℕ} (assignments : Mat N K) : Fin N → ℤ :=
  fun i =>
    (List.finRange K).foldl (fun acc k => if assignments i k = 1 then (k : ℤ) else acc) (-1)

/-- `util.assignment_from_chromosome`: zeros, then `assignments[i, c i] = 1`
for every `i` with `c i ≥ 0`.  (For `c i ∉ [0, num_ks)` the source would
raise an index error; here no column matches and the row stays zero.) -/
def assignment_from_chromosome {N : ℕ} (chromosome : Fin N → ℤ) (num_ks : ℕ) :
    Mat N num_ks :=
  fun i k => if chromosome i = (k : ℤ) then 1 else 0

/-- The value computed by `qmkp.total_profit_qmkp` after its binary check:
`np.sum(A.T @ np.diag(P) + np.diag(A.T @ P @ A)) / 2`. -/
def profit_value {N K : ℕ} (profits : Fin N → Fin N → ℚ) (assignments : Mat N K) : ℚ :=
  (∑ k, ((∑ i, assignments i k * profits i i) +
         ∑ i, ∑ j, assignments i k * profits i j * assignments j k)) / 2

/-- `qmkp.total_profit_qmkp`: raises when the assignment matrix is not
binary, otherwise returns `profit_value`. -/
def total_profit_qmkp {N K : ℕ} (profits : Fin N → Fin N → ℚ)
    (assignments : Mat N K) : Except String ℚ :=
  if ¬ is_binary assignments then .error "The assignments matrix needs to be binary."
  else .ok (profit_value profits assignments)

/-- Row-major list-of-rows form of a matrix (`np.array` of shape `N×K`),
used to feed algorithm outputs to the list-based `is_feasible_solution`. -/
def matrix_to_lists {N K : ℕ} (A : Mat N K) : List (List ℚ) :=
  List.ofFn (fun i => List.ofFn (A i))

/-- `solution[idx_element, idx_user] = 1`. -/
def assign_item {N K : ℕ} (A : Mat N K) (i : Fin N) (k : Fin K) : Mat N K :=
  fun i2 k2 => if i2 = i ∧ k2 = k then 1 else A i2 k2

/-- `capacities[idx_user] = capacities[idx_user] - weights[idx_element]`. -/
def deduct_capacity {K : ℕ} (rc : Fin K → ℚ) (k : Fin K) (amount : ℚ) : Fin K → ℚ :=
  fun k2 => if k2 = k then rc k2 - amount else rc k2

/-- The `while` loop of `algorithms.constructive_procedure`, as fuel
recursion on the state `(solution, capacities)`; `capacities` is the running
remaining-capacity vector.

The guard `len(unassigned) > 0 and np.min(weights[unassigned]) <
np.max(capacities)` is written in the equivalent existential form
`∃ i ∈ unassigned, ∃ k, weights i < capacities k` (equivalent because the
`min`/`max` reductions range over `unassigned`, nonempty by the short-circuit,
and over the `K ≥ 1` knapsacks).  The scan `np.argsort(dens_v, axis=None)[::-1]`
over the row-major flattened reduced density matrix is embedded as a stable
ascending sort of the (unassigned item, knapsack) pairs in row-major order,
reversed; numpy's default unstable sort leaves the tie order unspecified, and
no claim depends on it.  The `for`-loop with `break` is `List.find?`; the sort-and-scan step is the
separate definition `cp_select` below.  When no pair fits the source would
loop forever, which the fuel recursion below renders as returning the
current state — this branch is provably unreachable because the while-guard
exhibits a fitting pair. -/
def cp_select {N K : ℕ} (profits : Fin N → Fin N → ℚ) (weights : Fin N → ℚ)
    (solution : Mat N K) (capacities : Fin K → ℚ) : Option (Fin N × Fin K) :=
  let dens := value_density profits weights solution
  let pairs : List (Fin N × Fin K) :=
    (unassigned_items solution).flatMap (fun i => (List.finRange K).map (fun k => (i, k)))
  let scan := (List.insertionSort (fun a b : Fin N × Fin K => dens a.1 a.2 ≤ dens b.1 b.2) pairs).reverse
  scan.find? (fun p => decide (weights p.1 ≤ capacities p.2))

def cp_loop {N K : ℕ} (profits : Fin N → Fin N → ℚ) (weights : Fin N → ℚ) :
    ℕ → Mat N K → (Fin K → ℚ) → Mat N K × (Fin K → ℚ)
  | 0, solution, capacities => (solution, capacities)
  | fuel + 1, solution, capacities =>
    if ∃ i ∈ unassigned_items solution, ∃ k : Fin K, weights i < capacities k then
      match cp_select profits weights solution capacities with
      | some p =>
        cp_loop profits weights fuel (assign_item solution p.1 p.2)
          (deduct_capacity capacities p.2 (weights p.1))
      | none => (solution, capacities)
    else (solution, capacities)

/-- `algorithms.constructive_procedure`.  The shape check of the source is
enforced by the type of `starting_assignment`; the remaining validation
(binary, then nonnegative remaining capacity) mirrors the source order.  Fuel
`N` suffices for the loop since every guarded iteration assigns one item. -/
def constructive_procedure {N K : ℕ} (profits : Fin N → Fin N → ℚ)
    (weights : Fin N → ℚ) (capacities : Fin K → ℚ)
    (starting_assignment : Option (Mat N K)) : Except String (Mat N K) :=
  let start := starting_assignment.getD (fun _ _ => 0)
  if ¬ is_binary start then .error "The starting assignment needs to be a binary matrix"
  else
    let remaining := fun k => capacities k - knapsack_load weights start k
    if ∃ k, remaining k < 0 then
      .error "The starting assignment already violates the weight capacity limit"
    else
      .ok (cp_loop profits weights N start remaining).1

/-- The body of the `for idx_ks in order_ks` loop of `algorithms.round_robin`:
one knapsack's turn.  The turn is skipped when no unassigned item fits
(`continue`); otherwise the first fitting item of the descending-density scan
(`argsort` ascending on column `k` of the reduced densities, reversed,
followed by `np.argmax` of the fit mask, i.e. the first hit) is committed.
Densities and the unassigned list are pure functions of the current solution,
so recomputing them at the start of the turn agrees with the source, which
recomputes them after each commit. -/
def rr_select {N K : ℕ} (profits : Fin N → Fin N → ℚ) (weights : Fin N → ℚ)
    (solution : Mat N K) (rc_k : ℚ) (k : Fin K) : Option (Fin N) :=
  let dens := value_density profits weights solution
  let scan := (List.insertionSort (fun a b : Fin N => dens a k ≤ dens b k)
    (unassigned_items solution)).reverse
  scan.find? (fun i => decide (weights i ≤ rc_k))

def rr_turn {N K : ℕ} (profits : Fin N → Fin N → ℚ) (weights : Fin N → ℚ)
    (state : Mat N K × (Fin K → ℚ)) (k : Fin K) : Mat N K × (Fin K → ℚ) :=
  if ∃ i ∈ unassigned_items state.1, weights i ≤ state.2 k then
    match rr_select profits weights state.1 (state.2 k) k with
    | some i => (assign_item state.1 i k, deduct_capacity state.2 k (weights i))
    | none => state
  else state

/-- The `while` loop of `algorithms.round_robin` (fuel recursion): while some
unassigned item is strictly lighter than some remaining capacity among the
knapsacks of `order_ks` (the existential form of
`np.min(weights[unassigned]) < np.max(remain_capac[order_ks])` with its
nonempty short-circuit), give every knapsack in `order_ks` one turn. -/
def rr_loop {N K : ℕ} (profits : Fin N → Fin N → ℚ) (weights : Fin N → ℚ)
    (order_ks : List (Fin K)) : ℕ → Mat N K × (Fin K → ℚ) → Mat N K × (Fin K → ℚ)
  | 0, st => st
  | fuel + 1, st =>
    if ∃ i ∈ unassigned_items st.1, ∃ k ∈ order_ks, weights i < st.2 k then
      rr_loop profits weights order_ks fuel (order_ks.foldl (rr_turn profits weights) st)
    else st

/-- `algorithms.round_robin`.  Validation order as in the source: binary
starting assignment (its shape is enforced by the type), defaulting of a
`None` or empty `order_ks` to `range(num_ks)`, the range check on `order_ks`,
then the nonnegative remaining-capacity check.  After the range check the
order entries are converted to `Fin K` (the `filterMap` drops nothing once
the check passed).  Fuel `N` suffices: every guarded round commits at least
one item. -/
def round_robin {N K : ℕ} (profits : Fin N → Fin N → ℚ) (weights : Fin N → ℚ)
    (capacities : Fin K → ℚ) (starting_assignment : Option (Mat N K))
    (order_ks : Option (List ℕ)) : Except String (Mat N K) :=
  let start := starting_assignment.getD (fun _ _ => 0)
  if ¬ is_binary start then .error "The starting assignment needs to be a binary matrix"
  else
    let order0 := match order_ks with
      | none => List.range K
      | some l => if l.isEmpty then List.range K else l
    if ¬ (∀ n ∈ order0, n < K) then
      .error "The order of the knapsacks must only contain indices of the knapsacks, i.e., every element needs to be an integer from \x7b0, 1, ..., K-1\x7d."
    else
      let order : List (Fin K) := order0.filterMap (fun n => if h : n < K then some ⟨n, h⟩ else none)
      let remaining := fun k => capacities k - knapsack_load weights start k
      if ∃ k, remaining k < 0 then
        .error "The starting assignment already violates the weight capacity limit"
      else
        .ok (rr_loop profits weights order N (start, remaining)).1

/-- One item visit of `algorithms.random_assignment`.  `avail_ks` is the
ascending list of knapsacks whose remaining capacity admits the item.  The
random draws are oracles indexed by the position `step` of the visit:
`skip step` models `np.random.rand() < 1.0 / len(avail_ks)` and `pick step`
(taken modulo `len(avail_ks)`) models `np.random.choice(avail_ks)`. -/
def ra_step {N K : ℕ} (weights : Fin N → ℚ) (skip : ℕ → Bool) (pick : ℕ → ℕ)
    (state : Mat N K × (Fin K → ℚ)) (step : ℕ) (item : Fin N) :
    Mat N K × (Fin K → ℚ) :=
  let avail_ks := (List.finRange K).filter (fun k => decide (weights item ≤ state.2 k))
  if h : avail_ks = [] then state
  else if skip step then state
  else
    let ks := avail_ks.get ⟨pick step % avail_ks.length, Nat.mod_lt _ (List.length_pos.mpr h)⟩
    (assign_item state.1 item ks, deduct_capacity state.2 ks (weights item))

/-- `algorithms.random_assignment`: visit the items in the order of the
random permutation `perm` (an oracle; the feasibility theorem only needs it
duplicate-free), starting from the all-zero assignment and the full
capacities.  `profits` is unused, as in the source. -/
def random_assignment {N K : ℕ} (profits : Fin N → Fin N → ℚ) (weights : Fin N → ℚ)
    (capacities : Fin K → ℚ) (perm : List (Fin N)) (skip : ℕ → Bool)
    (pick : ℕ → ℕ) : Mat N K :=
  let _ := profits
  (perm.enum.foldl (fun st p => ra_step weights skip pick st p.1 p.2)
    ((fun _ _ => 0), capacities)).1

/-- The loop state of `algorithms.fcs_procedure`: the current and best
solutions, the non-improvement counter, and the position in the random
streams. -/
structure FcsState (N K : ℕ) where
  current_solution : Mat N K
  solution_best : Mat N K
  no_improvement : ℕ
  step : ℕ

instance {N K : ℕ} : DecidableEq (FcsState N K) := fun a b =>
  match a, b with
  | ⟨c1, b1, n1, s1⟩, ⟨c2, b2, n2, s2⟩ =>
    if h1 : c1 = c2 then
      if h2 : b1 = b2 then
        if h3 : n1 = n2 then
          if h4 : s1 = s2 then isTrue (by rw [h1, h2, h3, h4])
          else isFalse (fun hh => h4 (congrArg FcsState.step hh))
        else isFalse (fun hh => h3 (congrArg FcsState.no_improvement hh))
      else isFalse (fun hh => h2 (congrArg FcsState.solution_best hh))
    else isFalse (fun hh => h1 (congrArg FcsState.current_solution hh))

/-- One iteration of the `while` loop of `algorithms.fcs_procedure`.
`drop st.step` is the oracle for `np.random.choice(s1, size=int(len(s1) *
alpha), replace=False)`, the random set of items whose rows are zeroed
(quantifying over arbitrary lists subsumes every admissible draw: zeroing a
row not in `s1` is a no-op since such rows are already zero, so `alpha` does
not appear in the loop).  `coin st.step` is the oracle for
`np.random.rand() > 0.5`.  The profit of the best solution is computed before
the candidate's, as in the source, so its error (never reached under the
theorems' hypotheses) would surface first. -/
def fcs_step {N K : ℕ} (profits : Fin N → Fin N → ℚ) (weights : Fin N → ℚ)
    (capacities : Fin K → ℚ) (drop : ℕ → List (Fin N)) (coin : ℕ → Bool)
    (st : FcsState N K) : Except String (FcsState N K) :=
  let dropped := drop st.step
  let start_assign : Mat N K := fun i k => if i ∈ dropped then 0 else st.current_solution i k
  match constructive_procedure profits weights capacities (some start_assign) with
  | .error e => .error e
  | .ok s_prime =>
    match total_profit_qmkp profits st.solution_best,
          total_profit_qmkp profits s_prime with
    | .ok profit_best, .ok profit_prime =>
      let improved := profit_best < profit_prime
      let solution_best := if improved then s_prime else st.solution_best
      let no_improvement := if improved then 0 else st.no_improvement + 1
      let current_solution := if coin st.step then solution_best else st.current_solution
      .ok ⟨current_solution, solution_best, no_improvement, st.step + 1⟩
    | .error e, _ => .error e
    | _, .error e => .error e

/-- The `while no_improvement < len_history` loop of
`algorithms.fcs_procedure`, as fuel recursion (the theorems hold for every
fuel; the source loop terminates because the best profit strictly increases
at every counter reset and takes finitely many values). -/
def fcs_loop {N K : ℕ} (profits : Fin N → Fin N → ℚ) (weights : Fin N → ℚ)
    (capacities : Fin K → ℚ) (len_history : ℕ) (drop : ℕ → List (Fin N))
    (coin : ℕ → Bool) : ℕ → FcsState N K → Except String (Mat N K)
  | 0, st => .ok st.solution_best
  | fuel + 1, st =>
    if st.no_improvement < len_history then
      match fcs_step profits weights capacities drop coin st with
      | .error e => .error e
      | .ok st2 => fcs_loop profits weights capacities len_history drop coin fuel st2
    else .ok st.solution_best

/-- `algorithms.fcs_procedure`.  As in the source, the initial constructive
run happens before the parameter validation; `alpha_draw` is the oracle for
the `np.random.rand()` drawn when `alpha` is `None`. -/
def fcs_procedure {N K : ℕ} (profits : Fin N → Fin N → ℚ) (weights : Fin N → ℚ)
    (capacities : Fin K → ℚ) (alpha : Option ℚ) (len_history : ℕ)
    (alpha_draw : ℚ) (drop : ℕ → List (Fin N)) (coin : ℕ → Bool) (fuel : ℕ) :
    Except String (Mat N K) :=
  match constructive_procedure profits weights capacities none with
  | .error e => .error e
  | .ok current_solution =>
    let a := alpha.getD alpha_draw
    if ¬ (0 < a ∧ a < 1) then .error "Alpha needs to be in the interval (0, 1)"
    else if len_history < 1 then
      .error "The history length needs to be larger or equal to 1."
    else
      fcs_loop profits weights capacities len_history drop coin fuel
        ⟨current_solution, current_solution, 0, 0⟩

/-- All entries are 0 or 1 (the Prop form of `is_binary`). -/
def Binary {N K : ℕ} (A : Mat N K) : Prop := ∀ i k, A i k = 0 ∨ A i k = 1

/-- Every row sums to at most 1: each item is in at most one knapsack. -/
def RowSumOk {N K : ℕ} (A : Mat N K) : Prop := ∀ i, (∑ k, A i k) ≤ 1

instance {N K : ℕ} (A : Mat N K) : Decidable (Binary A) := by
  unfold Binary
  infer_instance

instance {N K : ℕ} (A : Mat N K) : Decidable (RowSumOk A) := by
  unfold RowSumOk
  infer_instance

/-- `A` is a feasible solution for weights `w` and capacities `c`: binary,
row sums at most 1, and per-knapsack load within capacity. -/
def Feasible {N K : ℕ} (w : Fin N → ℚ) (c : Fin K → ℚ) (A : Mat N K) : Prop :=
  Binary A ∧ RowSumOk A ∧ ∀ k, knapsack_load w A k ≤ c k

/-- Every placement of `A` is kept in `B`. -/
def Extends {N K : ℕ} (A B : Mat N K) : Prop := ∀ i k, A i k = 1 → B i k = 1

/-- Invariant of the completion loops: the solution is binary with row sums
at most 1, and the running remaining capacities are nonnegative and account
exactly for the loads against the original capacities `cap`. -/
def StateOk {N K : ℕ} (w : Fin N → ℚ) (cap : Fin K → ℚ)
    (st : Mat N K × (Fin K → ℚ)) : Prop :=
  Binary st.1 ∧ RowSumOk st.1 ∧ (∀ k, 0 ≤ st.2 k) ∧
    ∀ k, knapsack_load w st.1 k + st.2 k = cap k

/-- The concrete instance used to exhibit the behaviour of the FCS loop:
three unit-weight items in one knapsack of capacity 3, with a large joint
profit between items 1 and 2. -/
def cexProfits : Fin 3 → Fin 3 → ℚ := ![![4, 0, 0], ![0, 3, 10], ![0, 10, 3]]

/-- Weights of the FCS counterexample instance. -/
def cexWeights : Fin 3 → ℚ := ![1, 1, 1]

/-- Capacities of the FCS counterexample instance. -/
def cexCapacities : Fin 1 → ℚ := ![3]

/-- The constructive solution of the counterexample instance: items 0 and 2. -/
def cexFirst : Mat 3 1 := ![![1], ![0], ![1]]

/-- The candidate produced in the first FCS iteration after dropping item 0:
items 1 and 2, with profit 16 instead of 7. -/
def cexPrime : Mat 3 1 := ![![0], ![1], ![1]]

end QMKPy

namespace QMKPy

theorem is_binary_eq_true_iff {N K : ℕ} {A : Mat N K} :
    is_binary A = true ↔ Binary A := by
  simp [is_binary, Binary]

theorem mem_unassigned_items {N K : ℕ} {A : Mat N K} {i : Fin N} :
    i ∈ unassigned_items A ↔ ∀ k, A i k = 0 := by
  simp [unassigned_items, List.mem_filter, List.mem_finRange]

theorem binary_zero {N K : ℕ} : Binary (fun _ _ => (0 : ℚ) : Mat N K) :=
  fun _ _ => Or.inl rfl

theorem rowsumok_zero {N K : ℕ} : RowSumOk (fun _ _ => (0 : ℚ) : Mat N K) := by
  intro i; simp

theorem knapsack_load_zero {N K : ℕ} (w : Fin N → ℚ) (k : Fin K) :
    knapsack_load w (fun _ _ => (0 : ℚ)) k = 0 := by
  simp [knapsack_load]

theorem extends_refl {N K : ℕ} (A : Mat N K) : Extends A A := fun _ _ h => h

theorem extends_trans {N K : ℕ} {A B C : Mat N K}
    (h1 : Extends A B) (h2 : Extends B C) : Extends A C :=
  fun i k h => h2 i k (h1 i k h)

theorem assign_item_apply_self {N K : ℕ} (A : Mat N K) (i : Fin N) (k : Fin K) :
    assign_item A i k i k = 1 := by
  simp [assign_item]

theorem assign_item_apply_of_ne {N K : ℕ} (A : Mat N K) {i i2 : Fin N}
    {k k2 : Fin K} (h : ¬(i2 = i ∧ k2 = k)) : assign_item A i k i2 k2 = A i2 k2 := by
  simp only [assign_item, if_neg h]

theorem binary_assign_item {N K : ℕ} {A : Mat N K} (hA : Binary A)
    (i : Fin N) (k : Fin K) : Binary (assign_item A i k) := by
  intro i2 k2
  unfold assign_item
  split
  · exact Or.inr rfl
  · exact hA i2 k2

theorem extends_assign_item {N K : ℕ} (A : Mat N K) (i : Fin N) (k : Fin K) :
    Extends A (assign_item A i k) := by
  intro i2 k2 h
  unfold assign_item
  split
  · rfl
  · exact h

theorem row_sum_assign_item {N K : ℕ} {A : Mat N K} {i : Fin N} (k : Fin K)
    (hrow : ∀ k2, A i k2 = 0) :
    ∑ k2, assign_item A i k i k2 = 1 := by
  have h : ∀ k2 : Fin K, assign_item A i k i k2 = if k2 = k then 1 else 0 := by
    intro k2
    by_cases hk : k2 = k
    · subst hk; simp [assign_item]
    · rw [assign_item_apply_of_ne _ (by tauto), hrow k2, if_neg hk]
  rw [Finset.sum_congr rfl (fun k2 _ => h k2)]
  simp

theorem rowsumok_assign_item {N K : ℕ} {A : Mat N K} (hR : RowSumOk A)
    {i : Fin N} (k : Fin K) (hrow : ∀ k2, A i k2 = 0) :
    RowSumOk (assign_item A i k) := by
  intro i2
  by_cases hi : i2 = i
  · subst hi; rw [row_sum_assign_item k hrow]
  · have h : ∀ k2 : Fin K, assign_item A i k i2 k2 = A i2 k2 := fun k2 =>
      assign_item_apply_of_ne _ (by tauto)
    rw [Finset.sum_congr rfl (fun k2 _ => h k2)]
    exact hR i2

theorem knapsack_load_assign_item {N K : ℕ} (w : Fin N → ℚ) {A : Mat N K}
    {i : Fin N} {k : Fin K} (hA : A i k = 0) (k2 : Fin K) :
    knapsack_load w (assign_item A i k) k2 =
      knapsack_load w A k2 + (if k2 = k then w i else 0) := by
  unfold knapsack_load assign_item
  by_cases hk : k2 = k
  · subst hk
    have h : ∀ i2 : Fin N, i2 ∈ Finset.univ →
        w i2 * (if i2 = i ∧ k2 = k2 then 1 else A i2 k2) =
          w i2 * A i2 k2 + (if i2 = i then w i2 else 0) := by
      intro i2 _
      by_cases hi : i2 = i
      · subst hi; simp [hA]
      · simp [hi]
    rw [Finset.sum_congr rfl h, Finset.sum_add_distrib, Finset.sum_ite_eq']
    simp
  · have h : ∀ i2 : Fin N, i2 ∈ Finset.univ →
        w i2 * (if i2 = i ∧ k2 = k then 1 else A i2 k2) = w i2 * A i2 k2 := by
      intro i2 _
      rw [if_neg (by tauto)]
    rw [Finset.sum_congr rfl h, if_neg hk, add_zero]

theorem deduct_capacity_apply_self {K : ℕ} (rc : Fin K → ℚ) (k : Fin K) (a : ℚ) :
    deduct_capacity rc k a k = rc k - a := by
  simp [deduct_capacity]

theorem unassigned_items_assign {N K : ℕ} (A : Mat N K) (i : Fin N) (k : Fin K) :
    unassigned_items (assign_item A i k) =
      (unassigned_items A).filter (fun j => decide ¬(j = i)) := by
  unfold unassigned_items
  rw [List.filter_filter]
  apply List.filter_congr
  intro j _
  by_cases hj : j = i
  · subst hj
    have : ¬ ∀ k2, assign_item A j k j k2 = 0 := by
      intro hall
      have := hall k
      rw [assign_item_apply_self] at this
      norm_num at this
    simp [this]
  · have h : ∀ k2 : Fin K, assign_item A i k j k2 = A j k2 := fun k2 =>
      assign_item_apply_of_ne _ (by tauto)
    simp only [h, hj]
    simp

theorem length_unassigned_assign_lt {N K : ℕ} {A : Mat N K} {i : Fin N}
    (k : Fin K) (hi : i ∈ unassigned_items A) :
    (unassigned_items (assign_item A i k)).length < (unassigned_items A).length := by
  rw [unassigned_items_assign]
  exact List.length_filter_lt_length_iff_exists.mpr ⟨i, hi, by simp⟩

theorem cp_select_some {N K : ℕ} {P : Fin N → Fin N → ℚ} {w : Fin N → ℚ}
    {sol : Mat N K} {rc : Fin K → ℚ} {p : Fin N × Fin K}
    (h : cp_select P w sol rc = some p) :
    p.1 ∈ unassigned_items sol ∧ w p.1 ≤ rc p.2 := by
  simp only [cp_select] at h
  constructor
  · have hmem := List.mem_of_find?_eq_some h
    rw [List.mem_reverse, List.mem_insertionSort] at hmem
    rcases List.mem_flatMap.mp hmem with ⟨i, hi, hp⟩
    rcases List.mem_map.mp hp with ⟨k, -, rfl⟩
    exact hi
  · have hfind := List.find?_some h
    simpa using hfind

theorem cp_select_isSome {N K : ℕ} (P : Fin N → Fin N → ℚ) (w : Fin N → ℚ)
    {sol : Mat N K} {rc : Fin K → ℚ}
    (hg : ∃ i ∈ unassigned_items sol, ∃ k : Fin K, w i < rc k) :
    ∃ p, cp_select P w sol rc = some p := by
  rcases hg with ⟨i, hi, k, hik⟩
  rcases h : cp_select P w sol rc with - | p
  · exfalso
    simp only [cp_select] at h
    rw [List.find?_eq_none] at h
    refine h (i, k) ?_ ?_
    · rw [List.mem_reverse, List.mem_insertionSort, List.mem_flatMap]
      exact ⟨i, hi, List.mem_map.mpr ⟨k, List.mem_finRange k, rfl⟩⟩
    · exact decide_eq_true (le_of_lt hik)
  · exact ⟨p, rfl⟩

theorem cp_loop_zero {N K : ℕ} (P : Fin N → Fin N → ℚ) (w : Fin N → ℚ)
    (sol : Mat N K) (rc : Fin K → ℚ) : cp_loop P w 0 sol rc = (sol, rc) := rfl

theorem cp_loop_succ_of_not_guard {N K : ℕ} (P : Fin N → Fin N → ℚ) (w : Fin N → ℚ)
    (fuel : ℕ) {sol : Mat N K} {rc : Fin K → ℚ}
    (hg : ¬ ∃ i ∈ unassigned_items sol, ∃ k : Fin K, w i < rc k) :
    cp_loop P w (fuel + 1) sol rc = (sol, rc) := by
  simp only [cp_loop, if_neg hg]

theorem cp_loop_succ_of_select {N K : ℕ} (P : Fin N → Fin N → ℚ) (w : Fin N → ℚ)
    (fuel : ℕ) {sol : Mat N K} {rc : Fin K → ℚ} {p : Fin N × Fin K}
    (hg : ∃ i ∈ unassigned_items sol, ∃ k : Fin K, w i < rc k)
    (hs : cp_select P w sol rc = some p) :
    cp_loop P w (fuel + 1) sol rc =
      cp_loop P w fuel (assign_item sol p.1 p.2)
        (deduct_capacity rc p.2 (w p.1)) := by
  simp only [cp_loop, if_pos hg, hs]

theorem assign_StateOk {N K : ℕ} {w : Fin N → ℚ} {cap : Fin K → ℚ}
    {sol : Mat N K} {rc : Fin K → ℚ} (h : StateOk w cap (sol, rc))
    {i : Fin N} {k : Fin K} (hmem : i ∈ unassigned_items sol) (hfit : w i ≤ rc k) :
    StateOk w cap (assign_item sol i k, deduct_capacity rc k (w i)) := by
  obtain ⟨hB, hR, hrc, hacc⟩ := h
  have hB2 : Binary sol := hB
  have hR2 : RowSumOk sol := hR
  have hrc2 : ∀ k2, 0 ≤ rc k2 := hrc
  have hacc2 : ∀ k2, knapsack_load w sol k2 + rc k2 = cap k2 := hacc
  have hrow : ∀ k2, sol i k2 = 0 := mem_unassigned_items.mp hmem
  refine ⟨binary_assign_item hB2 i k, rowsumok_assign_item hR2 k hrow, ?_, ?_⟩
  · intro k2
    show 0 ≤ (if k2 = k then rc k2 - w i else rc k2)
    by_cases hk : k2 = k
    · rw [if_pos hk]
      subst hk
      linarith [hrc2 k2]
    · rw [if_neg hk]
      exact hrc2 k2
  · intro k2
    show knapsack_load w (assign_item sol i k) k2 +
      (if k2 = k then rc k2 - w i else rc k2) = cap k2
    rw [knapsack_load_assign_item w (hrow k) k2]
    by_cases hk : k2 = k
    · rw [if_pos hk, if_pos hk]
      have := hacc2 k2
      linarith
    · rw [if_neg hk, if_neg hk]
      have := hacc2 k2
      linarith

theorem cp_loop_StateOk {N K : ℕ} (P : Fin N → Fin N → ℚ) (w : Fin N → ℚ)
    (cap : Fin K → ℚ) :
    ∀ (fuel : ℕ) (sol : Mat N K) (rc : Fin K → ℚ), StateOk w cap (sol, rc) →
      StateOk w cap (cp_loop P w fuel sol rc) ∧
        Extends sol (cp_loop P w fuel sol rc).1 := by
  intro fuel
  induction fuel with
  | zero => intro sol rc h; exact ⟨h, extends_refl sol⟩
  | succ fuel ih =>
    intro sol rc h
    by_cases hg : ∃ i ∈ unassigned_items sol, ∃ k : Fin K, w i < rc k
    · obtain ⟨p, hp⟩ := cp_select_isSome P w hg
      obtain ⟨hmem, hfit⟩ := cp_select_some hp
      rw [cp_loop_succ_of_select P w fuel hg hp]
      obtain ⟨h1, h2⟩ := ih _ _ (assign_StateOk h hmem hfit)
      exact ⟨h1, extends_trans (extends_assign_item sol p.1 p.2) h2⟩
    · rw [cp_loop_succ_of_not_guard P w fuel hg]
      exact ⟨h, extends_refl sol⟩

theorem cp_loop_exit {N K : ℕ} (P : Fin N → Fin N → ℚ) (w : Fin N → ℚ) :
    ∀ (fuel : ℕ) (sol : Mat N K) (rc : Fin K → ℚ),
      (unassigned_items sol).length ≤ fuel →
      ¬ ∃ i ∈ unassigned_items (cp_loop P w fuel sol rc).1,
          ∃ k : Fin K, w i < (cp_loop P w fuel sol rc).2 k := by
  intro fuel
  induction fuel with
  | zero =>
    intro sol rc hlen
    have hnil : unassigned_items sol = [] :=
      List.length_eq_zero.mp (Nat.le_zero.mp hlen)
    rw [cp_loop_zero]
    simp [hnil]
  | succ fuel ih =>
    intro sol rc hlen
    by_cases hg : ∃ i ∈ unassigned_items sol, ∃ k : Fin K, w i < rc k
    · obtain ⟨p, hp⟩ := cp_select_isSome P w hg
      obtain ⟨hmem, -⟩ := cp_select_some hp
      rw [cp_loop_succ_of_select P w fuel hg hp]
      apply ih
      have := length_unassigned_assign_lt p.2 hmem
      omega
    · rw [cp_loop_succ_of_not_guard P w fuel hg]
      exact hg

theorem StateOk.feasible {N K : ℕ} {w : Fin N → ℚ} {cap : Fin K → ℚ}
    {st : Mat N K × (Fin K → ℚ)} (h : StateOk w cap st) : Feasible w cap st.1 := by
  obtain ⟨hB, hR, hrc, hacc⟩ := h
  refine ⟨hB, hR, fun k => ?_⟩
  have h1 := hrc k
  have h2 := hacc k
  linarith

theorem constructive_procedure_none_eq {N K : ℕ} (P : Fin N → Fin N → ℚ)
    (w : Fin N → ℚ) (c : Fin K → ℚ) :
    constructive_procedure P w c none =
      constructive_procedure P w c (some (fun _ _ => 0)) := rfl

theorem constructive_procedure_some_ok {N K : ℕ} (P : Fin N → Fin N → ℚ)
    {w : Fin N → ℚ} {c : Fin K → ℚ} {start : Mat N K}
    (hB : Binary start) (hR : RowSumOk start)
    (hload : ∀ k, knapsack_load w start k ≤ c k) :
    ∃ sol, constructive_procedure P w c (some start) = .ok sol ∧
      Feasible w c sol ∧ Extends start sol ∧
      ∀ i ∈ unassigned_items sol, ∀ k, c k - knapsack_load w sol k ≤ w i := by
  unfold constructive_procedure
  have hb : is_binary start = true := is_binary_eq_true_iff.mpr hB
  rw [Option.getD_some, if_neg (by simp [hb])]
  rw [if_neg (by
    push_neg
    intro k
    have := hload k
    linarith)]
  have hst : StateOk w c (start, fun k => c k - knapsack_load w start k) := by
    refine ⟨hB, hR, fun k => ?_, fun k => ?_⟩
    · have := hload k
      simp only
      linarith
    · simp only
      ring
  obtain ⟨hok, hext⟩ := cp_loop_StateOk P w c N start _ hst
  have hexit := cp_loop_exit P w N start (fun k => c k - knapsack_load w start k)
    (le_trans (List.length_filter_le _ _) (by simp))
  refine ⟨_, rfl, hok.feasible, hext, ?_⟩
  intro i hi k
  by_contra hlt
  push_neg at hlt
  apply hexit
  refine ⟨i, hi, k, ?_⟩
  have hacc := hok.2.2.2 k
  linarith

theorem constructive_procedure_none_ok {N K : ℕ} (P : Fin N → Fin N → ℚ)
    {w : Fin N → ℚ} {c : Fin K → ℚ} (hc : ∀ k, 0 ≤ c k) :
    ∃ sol, constructive_procedure P w c none = .ok sol ∧
      Feasible w c sol ∧
      ∀ i ∈ unassigned_items sol, ∀ k, c k - knapsack_load w sol k ≤ w i := by
  rw [constructive_procedure_none_eq]
  have hload0 : ∀ k, knapsack_load w (fun _ _ => (0 : ℚ) : Mat N K) k ≤ c k := by
    intro k
    rw [knapsack_load_zero]
    exact hc k
  obtain ⟨sol, h1, h2, -, h4⟩ :=
    constructive_procedure_some_ok P binary_zero rowsumok_zero hload0
  exact ⟨sol, h1, h2, h4⟩

theorem rr_select_some {N K : ℕ} {P : Fin N → Fin N → ℚ} {w : Fin N → ℚ}
    {sol : Mat N K} {x : ℚ} {k : Fin K} {i : Fin N}
    (h : rr_select P w sol x k = some i) :
    i ∈ unassigned_items sol ∧ w i ≤ x := by
  simp only [rr_select] at h
  constructor
  · have hmem := List.mem_of_find?_eq_some h
    rw [List.mem_reverse, List.mem_insertionSort] at hmem
    exact hmem
  · have hfind := List.find?_some h
    simpa using hfind

theorem rr_turn_spec {N K : ℕ} (P : Fin N → Fin N → ℚ) (w : Fin N → ℚ)
    {cap : Fin K → ℚ} {st : Mat N K × (Fin K → ℚ)} (h : StateOk w cap st)
    (k : Fin K) :
    StateOk w cap (rr_turn P w st k) ∧ Extends st.1 (rr_turn P w st k).1 := by
  by_cases hg : ∃ i ∈ unassigned_items st.1, w i ≤ st.2 k
  · rcases hs : rr_select P w st.1 (st.2 k) k with - | i
    · have heq : rr_turn P w st k = st := by simp only [rr_turn, if_pos hg, hs]
      rw [heq]
      exact ⟨h, extends_refl _⟩
    · have heq : rr_turn P w st k =
          (assign_item st.1 i k, deduct_capacity st.2 k (w i)) := by
        simp only [rr_turn, if_pos hg, hs]
      rw [heq]
      obtain ⟨hmem, hfit⟩ := rr_select_some hs
      exact ⟨assign_StateOk h hmem hfit, extends_assign_item _ _ _⟩
  · have heq : rr_turn P w st k = st := by simp only [rr_turn, if_neg hg]
    rw [heq]
    exact ⟨h, extends_refl _⟩

theorem rr_foldl_spec {N K : ℕ} (P : Fin N → Fin N → ℚ) (w : Fin N → ℚ)
    (cap : Fin K → ℚ) :
    ∀ (order : List (Fin K)) (st : Mat N K × (Fin K → ℚ)), StateOk w cap st →
      StateOk w cap (order.foldl (rr_turn P w) st) ∧
        Extends st.1 (order.foldl (rr_turn P w) st).1 := by
  intro order
  induction order with
  | nil => intro st h; exact ⟨h, extends_refl _⟩
  | cons k order ih =>
    intro st h
    rw [List.foldl_cons]
    obtain ⟨h1, h2⟩ := rr_turn_spec P w h k
    obtain ⟨h3, h4⟩ := ih _ h1
    exact ⟨h3, extends_trans h2 h4⟩

theorem rr_loop_spec {N K : ℕ} (P : Fin N → Fin N → ℚ) (w : Fin N → ℚ)
    (cap : Fin K → ℚ) (order : List (Fin K)) :
    ∀ (fuel : ℕ) (st : Mat N K × (Fin K → ℚ)), StateOk w cap st →
      StateOk w cap (rr_loop P w order fuel st) ∧
        Extends st.1 (rr_loop P w order fuel st).1 := by
  intro fuel
  induction fuel with
  | zero => intro st h; exact ⟨h, extends_refl _⟩
  | succ fuel ih =>
    intro st h
    by_cases hg : ∃ i ∈ unassigned_items st.1, ∃ k ∈ order, w i < st.2 k
    · have heq : rr_loop P w order (fuel + 1) st =
          rr_loop P w order fuel (order.foldl (rr_turn P w) st) := by
        simp only [rr_loop, if_pos hg]
      rw [heq]
      obtain ⟨h1, h2⟩ := rr_foldl_spec P w cap order st h
      obtain ⟨h3, h4⟩ := ih _ h1
      exact ⟨h3, extends_trans h2 h4⟩
    · have heq : rr_loop P w order (fuel + 1) st = st := by
        simp only [rr_loop, if_neg hg]
      rw [heq]
      exact ⟨h, extends_refl _⟩

theorem round_robin_some_ok {N K : ℕ} (P : Fin N → Fin N → ℚ)
    {w : Fin N → ℚ} {c : Fin K → ℚ} {start : Mat N K}
    (orderArg : Option (List ℕ)) (hB : Binary start) (hR : RowSumOk start)
    (hload : ∀ k, knapsack_load w start k ≤ c k)
    (horder : ∀ n ∈ orderArg.getD [], n < K) :
    ∃ sol, round_robin P w c (some start) orderArg = .ok sol ∧
      Feasible w c sol ∧ Extends start sol := by
  unfold round_robin
  have hb : is_binary start = true := is_binary_eq_true_iff.mpr hB
  rw [Option.getD_some, if_neg (by simp [hb])]
  have horder0 : ∀ n ∈ (match orderArg with
      | none => List.range K
      | some l => if l.isEmpty then List.range K else l), n < K := by
    rcases orderArg with - | l
    · intro n hn
      exact List.mem_range.mp hn
    · by_cases hl : l.isEmpty
      · simp only [hl, if_pos]
        intro n hn
        exact List.mem_range.mp hn
      · simp only [hl]
        intro n hn
        exact horder n (by simpa using hn)
  rw [if_neg (not_not_intro horder0)]
  rw [if_neg (by
    push_neg
    intro k
    have := hload k
    linarith)]
  have hst : StateOk w c (start, fun k => c k - knapsack_load w start k) := by
    refine ⟨hB, hR, fun k => ?_, fun k => ?_⟩
    · have := hload k
      simp only
      linarith
    · simp only
      ring
  obtain ⟨hok, hext⟩ := rr_loop_spec P w c _ N _ hst
  exact ⟨_, rfl, hok.feasible, hext⟩

theorem round_robin_none_ok {N K : ℕ} (P : Fin N → Fin N → ℚ)
    {w : Fin N → ℚ} {c : Fin K → ℚ} (hc : ∀ k, 0 ≤ c k) :
    ∃ sol, round_robin P w c none none = .ok sol ∧ Feasible w c sol := by
  have heq : round_robin P w c none none =
      round_robin P w c (some (fun _ _ => 0)) none := rfl
  rw [heq]
  have hload0 : ∀ k, knapsack_load w (fun _ _ => (0 : ℚ) : Mat N K) k ≤ c k := by
    intro k
    rw [knapsack_load_zero]
    exact hc k
  obtain ⟨sol, h1, h2, -⟩ :=
    round_robin_some_ok P none binary_zero rowsumok_zero hload0 (by simp)
  exact ⟨sol, h1, h2⟩

theorem ra_step_cases {N K : ℕ} (w : Fin N → ℚ) (skip : ℕ → Bool) (pick : ℕ → ℕ)
    (st : Mat N K × (Fin K → ℚ)) (step : ℕ) (item : Fin N) :
    ra_step w skip pick st step item = st ∨
    ∃ ks, w item ≤ st.2 ks ∧
      ra_step w skip pick st step item =
        (assign_item st.1 item ks, deduct_capacity st.2 ks (w item)) := by
  simp only [ra_step]
  split
  · left; rfl
  · split
    · left; rfl
    · right
      refine ⟨_, ?_, rfl⟩
      have hmem := List.get_mem
        ((List.finRange K).filter fun k => decide (w item ≤ st.2 k))
        (pick step % ((List.finRange K).filter fun k => decide (w item ≤ st.2 k)).length)
        (Nat.mod_lt _ (List.length_pos.mpr (by assumption)))
      rw [List.mem_filter] at hmem
      exact of_decide_eq_true hmem.2

theorem ra_foldl_spec {N K : ℕ} (w : Fin N → ℚ) (skip : ℕ → Bool) (pick : ℕ → ℕ)
    (cap : Fin K → ℚ) :
    ∀ (l : List (ℕ × Fin N)) (st : Mat N K × (Fin K → ℚ)),
      StateOk w cap st →
      (∀ p ∈ l, ∀ k, st.1 p.2 k = 0) →
      (l.map Prod.snd).Nodup →
      StateOk w cap (l.foldl (fun st p => ra_step w skip pick st p.1 p.2) st) := by
  intro l
  induction l with
  | nil => intro st h _ _; exact h
  | cons p l ih =>
    intro st h hrows hnodup
    rw [List.map_cons, List.nodup_cons] at hnodup
    rw [List.foldl_cons]
    rcases ra_step_cases w skip pick st p.1 p.2 with heq | ⟨ks, hks, heq⟩
    · rw [heq]
      exact ih st h (fun q hq => hrows q (List.mem_cons_of_mem p hq)) hnodup.2
    · rw [heq]
      have hmem : p.2 ∈ unassigned_items st.1 :=
        mem_unassigned_items.mpr (hrows p (List.mem_cons_self p l))
      apply ih _ (assign_StateOk h hmem hks)
      · intro q hq k
        have hne : q.2 ≠ p.2 := by
          intro hcontra
          exact hnodup.1 (hcontra ▸ List.mem_map_of_mem Prod.snd hq)
        show assign_item st.1 p.2 ks q.2 k = 0
        rw [assign_item_apply_of_ne _ (by tauto)]
        exact hrows q (List.mem_cons_of_mem p hq) k
      · exact hnodup.2

theorem random_assignment_feasible {N K : ℕ} (P : Fin N → Fin N → ℚ)
    {w : Fin N → ℚ} {c : Fin K → ℚ} (perm : List (Fin N)) (skip : ℕ → Bool)
    (pick : ℕ → ℕ) (hperm : perm.Nodup) (hc : ∀ k, 0 ≤ c k) :
    Feasible w c (random_assignment P w c perm skip pick) := by
  unfold random_assignment
  have h0 : StateOk w c ((fun _ _ => 0 : Mat N K), c) := by
    refine ⟨binary_zero, rowsumok_zero, hc, fun k => ?_⟩
    show knapsack_load w (fun _ _ => 0) k + c k = c k
    rw [knapsack_load_zero, zero_add]
  have hall := ra_foldl_spec w skip pick c perm.enum _ h0
    (fun _ _ _ => rfl) (by rw [List.enum_map_snd]; exact hperm)
  exact hall.feasible

theorem zero_rows_binary {N K : ℕ} {A : Mat N K} (hB : Binary A)
    (dropped : List (Fin N)) :
    Binary (fun i k => if i ∈ dropped then 0 else A i k) := by
  intro i k
  dsimp only
  split
  · exact Or.inl rfl
  · exact hB i k

theorem zero_rows_rowsum {N K : ℕ} {A : Mat N K} (hR : RowSumOk A)
    (dropped : List (Fin N)) :
    RowSumOk (fun i k => if i ∈ dropped then 0 else A i k) := by
  intro i
  by_cases hi : i ∈ dropped
  · simp [hi]
  · simp only [hi, if_false]
    exact hR i

theorem zero_rows_load_le {N K : ℕ} {w : Fin N → ℚ} {A : Mat N K}
    (hw : ∀ i, 0 ≤ w i) (hB : Binary A) (dropped : List (Fin N)) (k : Fin K) :
    knapsack_load w (fun i k2 => if i ∈ dropped then 0 else A i k2) k ≤
      knapsack_load w A k := by
  unfold knapsack_load
  apply Finset.sum_le_sum
  intro i _
  by_cases hi : i ∈ dropped
  · simp only [hi, if_true, mul_zero]
    have hA : 0 ≤ A i k := by
      rcases hB i k with h | h <;> rw [h] <;> norm_num
    exact mul_nonneg (hw i) hA
  · simp [hi]

theorem total_profit_qmkp_ok {N K : ℕ} (P : Fin N → Fin N → ℚ) {A : Mat N K}
    (hB : Binary A) :
    total_profit_qmkp P A = .ok (profit_value P A) := by
  unfold total_profit_qmkp
  rw [if_neg (not_not_intro (is_binary_eq_true_iff.mpr hB))]

theorem fcs_step_ok {N K : ℕ} (P : Fin N → Fin N → ℚ) {w : Fin N → ℚ}
    {c : Fin K → ℚ} (drop : ℕ → List (Fin N)) (coin : ℕ → Bool)
    (st : FcsState N K) (hw : ∀ i, 0 ≤ w i)
    (hcur : Feasible w c st.current_solution)
    (hbest : Feasible w c st.solution_best) :
    ∃ st2, fcs_step P w c drop coin st = .ok st2 ∧
      Feasible w c st2.current_solution ∧ Feasible w c st2.solution_best ∧
      profit_value P st.solution_best ≤ profit_value P st2.solution_best := by
  obtain ⟨hBc, hRc, hLc⟩ := hcur
  have hB2 : Binary (fun i k => if i ∈ drop st.step then 0 else st.current_solution i k) :=
    zero_rows_binary hBc (drop st.step)
  have hR2 : RowSumOk (fun i k => if i ∈ drop st.step then 0 else st.current_solution i k) :=
    zero_rows_rowsum hRc (drop st.step)
  have hL2 : ∀ k, knapsack_load w
      (fun i k2 => if i ∈ drop st.step then 0 else st.current_solution i k2) k ≤ c k :=
    fun k => le_trans (zero_rows_load_le hw hBc (drop st.step) k) (hLc k)
  obtain ⟨sp, hsp, hfsp, -, -⟩ := constructive_procedure_some_ok P hB2 hR2 hL2
  have hbb := total_profit_qmkp_ok P hbest.1
  have hpp := total_profit_qmkp_ok P hfsp.1
  have hstep : fcs_step P w c drop coin st = .ok
      ⟨if coin st.step then
          (if profit_value P st.solution_best < profit_value P sp then sp
           else st.solution_best)
        else st.current_solution,
       if profit_value P st.solution_best < profit_value P sp then sp
       else st.solution_best,
       if profit_value P st.solution_best < profit_value P sp then 0
       else st.no_improvement + 1,
       st.step + 1⟩ := by
    simp only [fcs_step, hsp, hbb, hpp]
  refine ⟨_, hstep, ?_, ?_, ?_⟩
  · by_cases hcoin : coin st.step <;>
      by_cases himp : profit_value P st.solution_best < profit_value P sp <;>
      simp only [hcoin, himp, if_true, if_false]
    · exact hfsp
    · exact hbest
    · exact ⟨hBc, hRc, hLc⟩
    · exact ⟨hBc, hRc, hLc⟩
  · by_cases himp : profit_value P st.solution_best < profit_value P sp <;>
      simp only [himp, if_true, if_false]
    · exact hfsp
    · exact hbest
  · by_cases himp : profit_value P st.solution_best < profit_value P sp <;>
      simp only [himp, if_true, if_false]
    · exact le_of_lt himp
    · exact le_refl _

theorem fcs_loop_ok {N K : ℕ} (P : Fin N → Fin N → ℚ) {w : Fin N → ℚ}
    {c : Fin K → ℚ} (lh : ℕ) (drop : ℕ → List (Fin N)) (coin : ℕ → Bool)
    (hw : ∀ i, 0 ≤ w i) :
    ∀ (fuel : ℕ) (st : FcsState N K),
      Feasible w c st.current_solution → Feasible w c st.solution_best →
      ∃ sol, fcs_loop P w c lh drop coin fuel st = .ok sol ∧ Feasible w c sol ∧
        profit_value P st.solution_best ≤ profit_value P sol := by
  intro fuel
  induction fuel with
  | zero =>
    intro st _ hbest
    exact ⟨st.solution_best, rfl, hbest, le_refl _⟩
  | succ fuel ih =>
    intro st hcur hbest
    by_cases hni : st.no_improvement < lh
    · obtain ⟨st2, hstep, hcur2, hbest2, hle⟩ := fcs_step_ok P drop coin st hw hcur hbest
      have heq : fcs_loop P w c lh drop coin (fuel + 1) st =
          fcs_loop P w c lh drop coin fuel st2 := by
        simp only [fcs_loop, if_pos hni, hstep]
      rw [heq]
      obtain ⟨sol, h1, h2, h3⟩ := ih st2 hcur2 hbest2
      exact ⟨sol, h1, h2, le_trans hle h3⟩
    · have heq : fcs_loop P w c lh drop coin (fuel + 1) st = .ok st.solution_best := by
        simp only [fcs_loop, if_neg hni]
      exact ⟨st.solution_best, heq, hbest, le_refl _⟩

theorem fcs_procedure_ok {N K : ℕ} (P : Fin N → Fin N → ℚ) {w : Fin N → ℚ}
    {c : Fin K → ℚ} (alphaArg : Option ℚ) (lh : ℕ) (alphaD : ℚ)
    (drop : ℕ → List (Fin N)) (coin : ℕ → Bool) (fuel : ℕ)
    (hw : ∀ i, 0 ≤ w i) (hc : ∀ k, 0 ≤ c k)
    (halpha : 0 < alphaArg.getD alphaD ∧ alphaArg.getD alphaD < 1)
    (hlh : 1 ≤ lh) :
    ∃ s0 sol, constructive_procedure P w c none = .ok s0 ∧
      fcs_procedure P w c alphaArg lh alphaD drop coin fuel = .ok sol ∧
      Feasible w c s0 ∧ Feasible w c sol ∧
      profit_value P s0 ≤ profit_value P sol := by
  obtain ⟨s0, hs0, hfeas0, -⟩ := constructive_procedure_none_ok P hc
  have hloop := fcs_loop_ok P lh drop coin hw fuel ⟨s0, s0, 0, 0⟩ hfeas0 hfeas0
  obtain ⟨sol, h1, h2, h3⟩ := hloop
  refine ⟨s0, sol, hs0, ?_, hfeas0, h2, h3⟩
  simp only [fcs_procedure, hs0, if_neg (not_not_intro halpha),
    if_neg (show ¬ lh < 1 by omega)]
  exact h1

theorem is_feasible_solution_cases (A Pl : List (List ℚ)) (w cap : List ℚ)
    (r : Bool) :
    is_feasible_solution A Pl w cap r =
      if ∃ row ∈ A, 1 < row.sum then
        (if r then .error "Each element can only by assigned at most once."
         else .ok false)
      else if ¬ is_binary_list A then
        (if r then .error "The assignment matrix needs to be binary."
         else .ok false)
      else if ¬ (A.length = w.length ∧ ∀ row ∈ A, row.length = cap.length) then
        (if r then .error "There is a mismatch of dimensions of the assigment matrix. It needs to be (num_items x num_knapsacks)."
         else .ok false)
      else if ∃ p ∈ (list_loads w A cap.length).zip cap, p.2 < p.1 then
        (if r then .error "The capacity constraint is violated" else .ok false)
      else .ok true := by
  simp only [is_feasible_solution]
  by_cases h3 : ∃ row ∈ A, 1 < row.sum
  · rw [if_pos h3, if_pos h3]
  · rw [if_neg h3, if_neg h3]
    by_cases h2 : is_binary_list A = true
    · rw [if_neg (not_not_intro h2), if_neg (not_not_intro h2)]
      by_cases h1 : A.length = w.length ∧ ∀ row ∈ A, row.length = cap.length
      · rw [if_neg (not_not_intro h1), if_neg (not_not_intro h1)]
      · rw [if_pos h1, if_pos h1]
    · rw [if_pos h2, if_pos h2]

theorem is_feasible_solution_spec (A Pl : List (List ℚ)) (w cap : List ℚ) :
    (is_feasible_solution A Pl w cap true =
      if ∃ row ∈ A, 1 < row.sum then
        .error "Each element can only by assigned at most once."
      else if ¬ is_binary_list A then
        .error "The assignment matrix needs to be binary."
      else if ¬ (A.length = w.length ∧ ∀ row ∈ A, row.length = cap.length) then
        .error "There is a mismatch of dimensions of the assigment matrix. It needs to be (num_items x num_knapsacks)."
      else if ∃ p ∈ (list_loads w A cap.length).zip cap, p.2 < p.1 then
        .error "The capacity constraint is violated"
      else .ok true) ∧
    (is_feasible_solution A Pl w cap false = .ok true ↔
      ((A.length = w.length ∧ ∀ row ∈ A, row.length = cap.length) ∧
        is_binary_list A = true ∧ (¬ ∃ row ∈ A, 1 < row.sum) ∧
        ¬ ∃ p ∈ (list_loads w A cap.length).zip cap, p.2 < p.1)) ∧
    (is_feasible_solution A Pl w cap false = .ok false ↔
      ¬ ((A.length = w.length ∧ ∀ row ∈ A, row.length = cap.length) ∧
        is_binary_list A = true ∧ (¬ ∃ row ∈ A, 1 < row.sum) ∧
        ¬ ∃ p ∈ (list_loads w A cap.length).zip cap, p.2 < p.1)) := by
  refine ⟨?_, ?_, ?_⟩ <;>
  · rw [is_feasible_solution_cases]
    by_cases h3 : ∃ row ∈ A, 1 < row.sum <;>
      by_cases h2 : is_binary_list A = true <;>
        by_cases h1 : A.length = w.length ∧ ∀ row ∈ A, row.length = cap.length <;>
          by_cases h4 : ∃ p ∈ (list_loads w A cap.length).zip cap, p.2 < p.1 <;>
            simp only [h1, h2, h3, h4, if_true, if_false, not_true, not_false_iff,
              if_pos, if_neg, not_not, Except.ok.injEq, Bool.false_eq_true,
              Bool.true_eq_false, false_iff, true_iff, iff_true, iff_false] <;>
              first
                | rfl
                | tauto
                | (simp [h1, h2, h3, h4] <;> tauto)

theorem zip_ofFn {α β : Type _} {n : ℕ} (f : Fin n → α) (g : Fin n → β) :
    (List.ofFn f).zip (List.ofFn g) = List.ofFn (fun i => (f i, g i)) := by
  apply List.ext_getElem
  · simp
  · intro i h1 h2
    simp [List.getElem_zip]

theorem list_loads_getD {N K : ℕ} (w : Fin N → ℚ) (A : Mat N K) (k : ℕ)
    (hk : k < K) :
    (list_loads (List.ofFn w) (matrix_to_lists A) K).getD k 0 =
      knapsack_load w A ⟨k, hk⟩ := by
  unfold list_loads matrix_to_lists knapsack_load
  have hlen : k < ((List.range K).map (fun k2 =>
      (((List.ofFn w).zip (List.ofFn (fun i => List.ofFn (A i)))).map
        (fun p => p.1 * p.2.getD k2 0)).sum)).length := by
    simp [hk]
  rw [List.getD_eq_getElem _ _ hlen, List.getElem_map, List.getElem_range]
  rw [zip_ofFn, List.map_ofFn, List.sum_ofFn]
  apply Finset.sum_congr rfl
  intro i _
  have hlen2 : k < (List.ofFn (A i)).length := by simp [hk]
  show w i * (List.ofFn (A i)).getD k 0 = w i * A i ⟨k, hk⟩
  rw [List.getD_eq_getElem _ _ hlen2, List.getElem_ofFn]

theorem feasible_list_ok {N K : ℕ} {w : Fin N → ℚ} {c : Fin K → ℚ} {A : Mat N K}
    (h : Feasible w c A) (Pl : List (List ℚ)) :
    is_feasible_solution (matrix_to_lists A) Pl (List.ofFn w) (List.ofFn c) false =
      .ok true := by
  have hshape : (matrix_to_lists A).length = (List.ofFn w).length ∧
      ∀ row ∈ matrix_to_lists A, row.length = (List.ofFn c).length := by
    constructor
    · simp [matrix_to_lists]
    · intro row hrow
      rcases (List.mem_ofFn _ _).mp hrow with ⟨i, rfl⟩
      simp
  have hbin : is_binary_list (matrix_to_lists A) = true := by
    unfold is_binary_list matrix_to_lists
    rw [List.all_eq_true]
    intro row hrow
    rcases (List.mem_ofFn _ _).mp hrow with ⟨i, rfl⟩
    rw [List.all_eq_true]
    intro v hv
    rcases (List.mem_ofFn _ _).mp hv with ⟨k, rfl⟩
    exact decide_eq_true (h.1 i k)
  have hrow : ¬ ∃ row ∈ matrix_to_lists A, 1 < row.sum := by
    rintro ⟨row, hrow, hlt⟩
    rcases (List.mem_ofFn _ _).mp hrow with ⟨i, rfl⟩
    rw [List.sum_ofFn] at hlt
    exact absurd (h.2.1 i) (not_le.mpr hlt)
  have hcap : ¬ ∃ p ∈ (list_loads (List.ofFn w) (matrix_to_lists A)
      (List.ofFn c).length).zip (List.ofFn c), p.2 < p.1 := by
    rintro ⟨p, hp, hlt⟩
    rcases List.mem_iff_getElem.mp hp with ⟨k, hklen, rfl⟩
    have hkK : k < K := by
      rw [List.length_zip] at hklen
      simp [list_loads] at hklen
      omega
    rw [List.getElem_zip] at hlt
    simp only at hlt
    have hload : (list_loads (List.ofFn w) (matrix_to_lists A)
        (List.ofFn c).length).getD k 0 = knapsack_load w A ⟨k, hkK⟩ := by
      rw [List.length_ofFn]
      exact list_loads_getD w A k hkK
    have hlen3 : k < (list_loads (List.ofFn w) (matrix_to_lists A)
        (List.ofFn c).length).length := by
      simp [list_loads, hkK]
    rw [List.getD_eq_getElem _ _ hlen3] at hload
    rw [hload, List.getElem_ofFn] at hlt
    exact absurd (h.2.2 ⟨k, hkK⟩) (not_le.mpr hlt)
  exact (is_feasible_solution_spec (matrix_to_lists A) Pl (List.ofFn w)
    (List.ofFn c)).2.1.mpr ⟨hshape, hbin, hrow, hcap⟩

theorem sum_pairs_symm {n : ℕ} (Q : Fin n → Fin n → ℚ)
    (hsym : ∀ i j, Q i j = Q j i) :
    ∑ i, ∑ j, Q i j =
      (∑ i, Q i i) + 2 * ∑ i, ∑ j, if i < j then Q i j else 0 := by
  have hdecomp : ∀ i j : Fin n, Q i j =
      (if i = j then Q i j else 0) + (if i < j then Q i j else 0) +
        (if j < i then Q i j else 0) := by
    intro i j
    rcases lt_trichotomy i j with h | h | h
    · rw [if_neg (ne_of_lt h), if_pos h, if_neg (lt_asymm h)]
      ring
    · rw [if_pos h, if_neg (by rw [h]; exact lt_irrefl j),
        if_neg (by rw [h]; exact lt_irrefl j)]
      ring
    · rw [if_neg (ne_of_gt h), if_neg (lt_asymm h), if_pos h]
      ring
  have hsplit : ∑ i, ∑ j, Q i j =
      (∑ i, ∑ j, if i = j then Q i j else 0) +
        (∑ i, ∑ j, if i < j then Q i j else 0) +
        (∑ i, ∑ j, if j < i then Q i j else 0) := by
    rw [← Finset.sum_add_distrib, ← Finset.sum_add_distrib]
    apply Finset.sum_congr rfl
    intro i _
    rw [← Finset.sum_add_distrib, ← Finset.sum_add_distrib]
    exact Finset.sum_congr rfl (fun j _ => hdecomp i j)
  have hdiag : (∑ i : Fin n, ∑ j, if i = j then Q i j else 0) = ∑ i, Q i i := by
    apply Finset.sum_congr rfl
    intro i _
    rw [Finset.sum_ite_eq Finset.univ i (fun j => Q i j)]
    simp
  have hswap : (∑ i : Fin n, ∑ j, if j < i then Q i j else 0) =
      ∑ i, ∑ j, if i < j then Q i j else 0 := by
    rw [Finset.sum_comm]
    apply Finset.sum_congr rfl
    intro i _
    apply Finset.sum_congr rfl
    intro j _
    by_cases h : i < j
    · rw [if_pos h, if_pos h, hsym j i]
    · rw [if_neg h, if_neg h]
  rw [hsplit, hdiag, hswap]
  ring

theorem profit_value_formula {N K : ℕ} {P : Fin N → Fin N → ℚ} {A : Mat N K}
    (hsym : ∀ i j, P i j = P j i) (hB : Binary A) :
    profit_value P A =
      ∑ k, ((∑ i, if A i k = 1 then P i i else 0) +
            ∑ i, ∑ j, if i < j ∧ A i k = 1 ∧ A j k = 1 then P i j else 0) := by
  unfold profit_value
  rw [div_eq_iff (two_ne_zero), Finset.sum_mul]
  apply Finset.sum_congr rfl
  intro k _
  have hT1 : ∑ i, A i k * P i i = ∑ i, if A i k = 1 then P i i else 0 := by
    apply Finset.sum_congr rfl
    intro i _
    rcases hB i k with h | h <;> simp [h]
  have hT2 : ∑ i, ∑ j, A i k * P i j * A j k =
      ∑ i, ∑ j, if A i k = 1 ∧ A j k = 1 then P i j else 0 := by
    apply Finset.sum_congr rfl
    intro i _
    apply Finset.sum_congr rfl
    intro j _
    rcases hB i k with h | h <;> rcases hB j k with h2 | h2 <;> simp [h, h2]
  have hQsym : ∀ i j, (if A i k = 1 ∧ A j k = 1 then P i j else 0) =
      (if A j k = 1 ∧ A i k = 1 then P j i else 0) := by
    intro i j
    rw [hsym i j]
    exact if_congr and_comm rfl rfl
  have hpair := sum_pairs_symm (fun i j => if A i k = 1 ∧ A j k = 1 then P i j else 0) hQsym
  rw [hT1, hT2, hpair]
  have hdiag2 : (∑ i, if A i k = 1 ∧ A i k = 1 then P i i else 0) =
      ∑ i, if A i k = 1 then P i i else 0 := by
    apply Finset.sum_congr rfl
    intro i _
    exact if_congr and_self_iff rfl rfl
  have hmerge : ∀ i j : Fin N,
      (if i < j then (if A i k = 1 ∧ A j k = 1 then P i j else 0) else 0) =
        (if i < j ∧ A i k = 1 ∧ A j k = 1 then P i j else 0) := by
    intro i j
    by_cases h : i < j
    · rw [if_pos h]
      by_cases h2 : A i k = 1 ∧ A j k = 1
      · rw [if_pos h2, if_pos ⟨h, h2⟩]
      · rw [if_neg h2, if_neg (by tauto)]
    · rw [if_neg h, if_neg (by tauto)]
  have hmerge2 : (∑ i, ∑ j, if i < j then (if A i k = 1 ∧ A j k = 1 then P i j else 0) else 0) =
      ∑ i, ∑ j, if i < j ∧ A i k = 1 ∧ A j k = 1 then P i j else 0 :=
    Finset.sum_congr rfl (fun i _ => Finset.sum_congr rfl (fun j _ => hmerge i j))
  rw [hdiag2, hmerge2]
  ring

theorem value_density_formula {N K : ℕ} {P : Fin N → Fin N → ℚ}
    {w : Fin N → ℚ} {A : Mat N K} (hB : Binary A) (i : Fin N) (k : Fin K) :
    value_density P w A i k =
      (1 / w i) * (P i i + ∑ j, if j ≠ i ∧ A j k = 1 then P i j else 0) := by
  unfold value_density
  rw [one_div, inv_mul_eq_div]
  congr 1
  have hsplit : ∀ j : Fin N, P i j * A j k =
      (if j = i then P i i * A i k else 0) +
        (if j ≠ i ∧ A j k = 1 then P i j else 0) := by
    intro j
    by_cases hj : j = i
    · subst hj
      rw [if_pos rfl, if_neg (by tauto)]
      ring
    · rw [if_neg hj]
      rcases hB j k with h | h <;> simp [h, hj]
  rw [Finset.sum_congr rfl (fun j _ => hsplit j), Finset.sum_add_distrib,
    Finset.sum_ite_eq' Finset.univ i (fun j => P i i * A i k)]
  simp only [Finset.mem_univ, if_true]
  ring

theorem binary_row_unique {N K : ℕ} {A : Mat N K} (hB : Binary A)
    (hR : RowSumOk A) {i : Fin N} {k1 k2 : Fin K}
    (h1 : A i k1 = 1) (h2 : A i k2 = 1) : k1 = k2 := by
  by_contra hne
  have hsub : ({k1, k2} : Finset (Fin K)) ⊆ Finset.univ := Finset.subset_univ _
  have hpair : ∑ k ∈ ({k1, k2} : Finset (Fin K)), A i k = 2 := by
    rw [Finset.sum_pair hne, h1, h2]
    norm_num
  have hle : ∑ k ∈ ({k1, k2} : Finset (Fin K)), A i k ≤ ∑ k, A i k := by
    apply Finset.sum_le_sum_of_subset_of_nonneg hsub
    intro k _ _
    rcases hB i k with h | h <;> rw [h] <;> norm_num
  have := hR i
  rw [hpair] at hle
  linarith

theorem chromosome_foldl_no_hit {N K : ℕ} (A : Mat N K) (i : Fin N) :
    ∀ (l : List (Fin K)) (acc : ℤ), (∀ k ∈ l, A i k ≠ 1) →
      l.foldl (fun acc k => if A i k = 1 then (k : ℤ) else acc) acc = acc := by
  intro l
  induction l with
  | nil => intro acc _; rfl
  | cons x l ih =>
    intro acc hno
    rw [List.foldl_cons, if_neg (hno x (List.mem_cons_self x l))]
    exact ih acc (fun k hk => hno k (List.mem_cons_of_mem x hk))

theorem chromosome_foldl_hit {N K : ℕ} (A : Mat N K) (i : Fin N) (k0 : Fin K)
    (hk0 : A i k0 = 1) :
    ∀ (l : List (Fin K)) (acc : ℤ), k0 ∈ l → (∀ k ∈ l, A i k = 1 → k = k0) →
      l.foldl (fun acc k => if A i k = 1 then (k : ℤ) else acc) acc = (k0 : ℤ) := by
  intro l
  induction l with
  | nil => intro acc hmem _; exact absurd hmem (List.not_mem_nil k0)
  | cons x l ih =>
    intro acc hmem huniq
    rw [List.foldl_cons]
    by_cases hrest : k0 ∈ l
    · exact ih _ hrest (fun k hk => huniq k (List.mem_cons_of_mem x hk))
    · have hx : k0 = x := by
        rcases List.mem_cons.mp hmem with h | h
        · exact h
        · exact absurd h hrest
      subst hx
      rw [if_pos hk0]
      apply chromosome_foldl_no_hit
      intro k hk hcontra
      exact hrest ((huniq k (List.mem_cons_of_mem k0 hk) hcontra) ▸ hk)

theorem chromosome_roundtrip {N K : ℕ} {A : Mat N K} (hB : Binary A)
    (hR : RowSumOk A) :
    assignment_from_chromosome (chromosome_from_assignment A) K = A := by
  funext i k
  unfold assignment_from_chromosome chromosome_from_assignment
  by_cases hrow : ∃ k0, A i k0 = 1
  · obtain ⟨k0, hk0⟩ := hrow
    rw [chromosome_foldl_hit A i k0 hk0 (List.finRange K) (-1)
      (List.mem_finRange k0) (fun k2 _ h2 => binary_row_unique hB hR h2 hk0)]
    by_cases hk : k0 = k
    · subst hk
      rw [if_pos rfl, hk0]
    · rw [if_neg (by
        intro hcontra
        exact hk (Fin.val_injective (Int.ofNat.inj hcontra)))]
      rcases hB i k with h | h
      · rw [h]
      · exact absurd (binary_row_unique hB hR h hk0) (fun hh => hk hh.symm)
  · push_neg at hrow
    rw [chromosome_foldl_no_hit A i (List.finRange K) (-1) (fun k2 _ => hrow k2)]
    rw [if_neg (by
      intro hcontra
      omega)]
    rcases hB i k with h | h
    · rw [h]
    · exact absurd h (hrow k)

theorem fcs_step_current {N K : ℕ} {P : Fin N → Fin N → ℚ} {w : Fin N → ℚ}
    {c : Fin K → ℚ} {drop : ℕ → List (Fin N)} {coin : ℕ → Bool}
    {st st2 : FcsState N K}
    (h : fcs_step P w c drop coin st = .ok st2) :
    st2.current_solution =
      (if coin st.step then st2.solution_best else st.current_solution) ∧
    st2.solution_best =
      (if profit_value P st.solution_best <
          profit_value P st2.solution_best then st2.solution_best
       else st.solution_best) := by
  simp only [fcs_step] at h
  rcases hcp : constructive_procedure P w c
      (some fun i k => if i ∈ drop st.step then 0 else st.current_solution i k)
    with e | sp
  · simp only [hcp] at h
    exact absurd h (by simp)
  · simp only [hcp] at h
    rcases hb : total_profit_qmkp P st.solution_best with e | pb
    · simp only [hb] at h
      exact absurd h (by simp)
    · simp only [hb] at h
      rcases hp : total_profit_qmkp P sp with e | pp
      · simp only [hp] at h
        exact absurd h (by simp)
      · simp only [hp] at h
        simp only [Except.ok.injEq] at h
        subst h
        have hpb : pb = profit_value P st.solution_best := by
          unfold total_profit_qmkp at hb
          by_cases hbin : is_binary st.solution_best = true
          · rw [if_neg (not_not_intro hbin)] at hb
            exact (Except.ok.inj hb).symm
          · rw [if_pos hbin] at hb
            exact absurd hb (by simp)
        have hpp : pp = profit_value P sp := by
          unfold total_profit_qmkp at hp
          by_cases hbin : is_binary sp = true
          · rw [if_neg (not_not_intro hbin)] at hp
            exact (Except.ok.inj hp).symm
          · rw [if_pos hbin] at hp
            exact absurd hp (by simp)
        subst hpb hpp
        by_cases himp : profit_value P st.solution_best < profit_value P sp <;>
          simp [himp]

/-- C2: for every symmetric profit matrix and binary assignment with row sums
at most 1, `total_profit_qmkp` returns the sum, over knapsacks, of the
diagonal profits of the members plus the joint profits over unordered pairs
of distinct members; on the documented example instance it returns exactly
14. -/
theorem c2_total_profit_formula {N K : ℕ} (P : Fin N → Fin N → ℚ) (A : Mat N K)
    (hsym : ∀ i j, P i j = P j i) (hB : Binary A) (hR : RowSumOk A) :
    total_profit_qmkp P A = .ok
      (∑ k, ((∑ i, if A i k = 1 then P i i else 0) +
             ∑ i, ∑ j, if i < j ∧ A i k = 1 ∧ A j k = 1 then P i j else 0)) ∧
    total_profit_qmkp
      (![![1, 1, 2, 3], ![1, 1, 4, 5], ![2, 4, 2, 6], ![3, 5, 6, 3]] :
        Fin 4 → Fin 4 → ℚ)
      (![![0, 0, 1], ![1, 0, 0], ![1, 0, 0], ![0, 0, 1]] : Mat 4 3) = .ok 14 := by
  constructor
  · rw [total_profit_qmkp_ok P hB, profit_value_formula hsym hB]
  · decide

/-- Witness for C2 at the documented example instance. -/
theorem c2_total_profit_formula_witness :
    total_profit_qmkp
        (![![1, 1, 2, 3], ![1, 1, 4, 5], ![2, 4, 2, 6], ![3, 5, 6, 3]] :
          Fin 4 → Fin 4 → ℚ)
        (![![0, 0, 1], ![1, 0, 0], ![1, 0, 0], ![0, 0, 1]] : Mat 4 3) =
      .ok
        (∑ k, ((∑ i, if (![![0, 0, 1], ![1, 0, 0], ![1, 0, 0], ![0, 0, 1]] :
            Mat 4 3) i k = 1 then
              (![![1, 1, 2, 3], ![1, 1, 4, 5], ![2, 4, 2, 6], ![3, 5, 6, 3]] :
                Fin 4 → Fin 4 → ℚ) i i else 0) +
          ∑ i, ∑ j, if i < j ∧ (![![0, 0, 1], ![1, 0, 0], ![1, 0, 0], ![0, 0, 1]] :
              Mat 4 3) i k = 1 ∧ (![![0, 0, 1], ![1, 0, 0], ![1, 0, 0], ![0, 0, 1]] :
              Mat 4 3) j k = 1 then
              (![![1, 1, 2, 3], ![1, 1, 4, 5], ![2, 4, 2, 6], ![3, 5, 6, 3]] :
                Fin 4 → Fin 4 → ℚ) i j else 0)) :=
  (c2_total_profit_formula _ _ (by decide) (by decide) (by decide)).1

/-- C3 as stated is false: with one item of weight 2, one knapsack of
capacity 2 and no starting assignment, the loop guard
`np.min(weights[unassigned]) < np.max(capacities)` is false at once, so the
constructive procedure returns with item 0 unassigned although its weight
equals (hence does not exceed) the knapsack's remaining capacity. -/
theorem c3_counterexample :
    constructive_procedure (![![5]] : Fin 1 → Fin 1 → ℚ) ![2] ![2] none =
      .ok (fun _ _ => 0) ∧
    unassigned_items ((fun _ _ => 0) : Mat 1 1) = [0] ∧
    (![2] : Fin 1 → ℚ) 0 ≤
      (![2] : Fin 1 → ℚ) 0 -
        knapsack_load ![2] ((fun _ _ => 0) : Mat 1 1) 0 := by
  exact ⟨by decide, by decide, by decide⟩

/-- C3 amended: upon return of the constructive procedure, either every item
is assigned or every remaining unassigned item's weight is at least (≥, not
necessarily strictly greater than) every knapsack's remaining capacity; an
unassigned item whose weight exactly equals the largest remaining capacity
may be left unplaced. -/
theorem c3_termination_amended {N K : ℕ} (P : Fin N → Fin N → ℚ)
    {w : Fin N → ℚ} {c : Fin K → ℚ} {start : Mat N K}
    (hB : Binary start) (hR : RowSumOk start)
    (hload : ∀ k, knapsack_load w start k ≤ c k) :
    ∃ sol, constructive_procedure P w c (some start) = .ok sol ∧
      ∀ i ∈ unassigned_items sol, ∀ k, c k - knapsack_load w sol k ≤ w i := by
  obtain ⟨sol, h1, -, -, h4⟩ := constructive_procedure_some_ok P hB hR hload
  exact ⟨sol, h1, h4⟩

/-- Witness for the amended C3 at the boundary instance of the
counterexample. -/
theorem c3_termination_amended_witness :
    ∃ sol, constructive_procedure (![![5]] : Fin 1 → Fin 1 → ℚ) ![2] ![2]
        (some (fun _ _ => 0)) = .ok sol ∧
      ∀ i ∈ unassigned_items sol, ∀ k,
        (![2] : Fin 1 → ℚ) k - knapsack_load ![2] sol k ≤ (![2] : Fin 1 → ℚ) i :=
  c3_termination_amended (![![5]] : Fin 1 → Fin 1 → ℚ)
    (by intro i k; exact Or.inl rfl) (by intro i; simp) (by decide)

/-- C4 as stated is false: on the instance `cexProfits`/`cexWeights`/
`cexCapacities`, starting from the (reachable) initial FCS state whose
current and best solutions are the constructive solution `cexFirst`, the
first iteration builds the improving candidate s_prime = `cexPrime`, the
coin flip is false, and the next iteration's current_solution is still
`cexFirst`, not s_prime. -/
theorem c4_counterexample :
    constructive_procedure cexProfits cexWeights cexCapacities none =
      .ok cexFirst ∧
    constructive_procedure cexProfits cexWeights cexCapacities
        (some (fun i k => if i ∈ ([0] : List (Fin 3)) then 0 else cexFirst i k)) =
      .ok cexPrime ∧
    fcs_step cexProfits cexWeights cexCapacities (fun _ => [0]) (fun _ => false)
        ⟨cexFirst, cexFirst, 0, 0⟩ = .ok ⟨cexFirst, cexPrime, 0, 1⟩ ∧
    (fun _ => false : ℕ → Bool) 0 = false ∧ cexFirst ≠ cexPrime := by
  exact ⟨by decide, by decide, by decide, rfl, by decide⟩

/-- C4 amended: in every iteration of the FCS loop, current_solution does not
advance to the newly completed candidate by itself: it is left unchanged
unless the coin flip fires, in which case it becomes the (possibly updated)
solution_best. -/
theorem c4_fcs_current_amended {N K : ℕ} (P : Fin N → Fin N → ℚ)
    (w : Fin N → ℚ) (c : Fin K → ℚ) (drop : ℕ → List (Fin N))
    (coin : ℕ → Bool) (st st2 : FcsState N K)
    (h : fcs_step P w c drop coin st = .ok st2) :
    st2.current_solution =
      (if coin st.step then st2.solution_best else st.current_solution) :=
  (fcs_step_current h).1

/-- Witness for the amended C4 at the counterexample instance. -/
theorem c4_fcs_current_amended_witness :
    (⟨cexFirst, cexPrime, 0, 1⟩ : FcsState 3 1).current_solution =
      (if (fun _ => false : ℕ → Bool) 0 then
        (⟨cexFirst, cexPrime, 0, 1⟩ : FcsState 3 1).solution_best
       else (⟨cexFirst, cexFirst, 0, 0⟩ : FcsState 3 1).current_solution) :=
  c4_fcs_current_amended cexProfits cexWeights cexCapacities (fun _ => [0])
    (fun _ => false) ⟨cexFirst, cexFirst, 0, 0⟩ ⟨cexFirst, cexPrime, 0, 1⟩
    (by decide)

/-- C8 as stated is false: on an assignment that violates the shape check
(1×1 instead of 1×2), the binary check and the row-sum check at once, the
raised message names the row-sum condition (the last overwritten), not the
shape condition (the first in the claimed order). -/
theorem c8_counterexample :
    is_feasible_solution [[2]] [[1]] [1] [1, 1] true =
      .error "Each element can only by assigned at most once." ∧
    ¬ (([[(2 : ℚ)]] : List (List ℚ)).length = ([(1 : ℚ)] : List ℚ).length ∧
       ∀ row ∈ ([[(2 : ℚ)]] : List (List ℚ)),
         row.length = ([(1 : ℚ), 1] : List ℚ).length) ∧
    "Each element can only by assigned at most once." ≠
      "There is a mismatch of dimensions of the assigment matrix. It needs to be (num_items x num_knapsacks)." := by
  exact ⟨by decide, by decide, by decide⟩

/-- C8 amended: with raise_error=True the raised message names the LAST
violated condition among shape → binary → row-sum (each later check
overwrites the message), and the capacity message appears only when those
three pass; with raise_error=False the function returns true exactly when
no condition is violated and false otherwise. -/
theorem c8_check_order_amended (A Pl : List (List ℚ)) (w cap : List ℚ) :
    (is_feasible_solution A Pl w cap true =
      if ∃ row ∈ A, 1 < row.sum then
        .error "Each element can only by assigned at most once."
      else if ¬ is_binary_list A then
        .error "The assignment matrix needs to be binary."
      else if ¬ (A.length = w.length ∧ ∀ row ∈ A, row.length = cap.length) then
        .error "There is a mismatch of dimensions of the assigment matrix. It needs to be (num_items x num_knapsacks)."
      else if ∃ p ∈ (list_loads w A cap.length).zip cap, p.2 < p.1 then
        .error "The capacity constraint is violated"
      else .ok true) ∧
    (is_feasible_solution A Pl w cap false = .ok true ↔
      ((A.length = w.length ∧ ∀ row ∈ A, row.length = cap.length) ∧
        is_binary_list A = true ∧ (¬ ∃ row ∈ A, 1 < row.sum) ∧
        ¬ ∃ p ∈ (list_loads w A cap.length).zip cap, p.2 < p.1)) ∧
    (is_feasible_solution A Pl w cap false = .ok false ↔
      ¬ ((A.length = w.length ∧ ∀ row ∈ A, row.length = cap.length) ∧
        is_binary_list A = true ∧ (¬ ∃ row ∈ A, 1 < row.sum) ∧
        ¬ ∃ p ∈ (list_loads w A cap.length).zip cap, p.2 < p.1)) :=
  is_feasible_solution_spec A Pl w cap

/-- C9: converting a binary assignment matrix with row sums at most 1 to the
chromosome form and back is the identity; the chromosome maps an all-zero
row to -1 and a row with a 1 in column k to k. -/
theorem c9_chromosome_roundtrip {N K : ℕ} (A : Mat N K) (hB : Binary A)
    (hR : RowSumOk A) :
    assignment_from_chromosome (chromosome_from_assignment A) K = A ∧
    (∀ i, (∀ k, A i k = 0) → chromosome_from_assignment A i = -1) ∧
    (∀ i k, A i k = 1 → chromosome_from_assignment A i = (k : ℤ)) := by
  refine ⟨chromosome_roundtrip hB hR, ?_, ?_⟩
  · intro i hrow
    unfold chromosome_from_assignment
    apply chromosome_foldl_no_hit
    intro k _ hcontra
    rw [hrow k] at hcontra
    norm_num at hcontra
  · intro i k hk
    unfold chromosome_from_assignment
    exact chromosome_foldl_hit A i k hk (List.finRange K) (-1)
      (List.mem_finRange k) (fun k2 _ h2 => binary_row_unique hB hR h2 hk)

/-- Witness for C9 at the documentation example (items 0 and 3 in knapsack 0,
item 1 in knapsack 2, item 2 unassigned). -/
theorem c9_chromosome_roundtrip_witness :
    assignment_from_chromosome
        (chromosome_from_assignment
          (![![1, 0, 0], ![0, 0, 1], ![0, 0, 0], ![1, 0, 0]] : Mat 4 3)) 3 =
      (![![1, 0, 0], ![0, 0, 1], ![0, 0, 0], ![1, 0, 0]] : Mat 4 3) :=
  (c9_chromosome_roundtrip _ (by decide) (by decide)).1

/-- C10: calling round_robin with an empty order_ks behaves exactly as if
order_ks had been omitted (it is replaced by the natural order 0..K-1), not
as "no knapsack ever takes a turn". -/
theorem c10_round_robin_empty_order {N K : ℕ} (P : Fin N → Fin N → ℚ)
    (w : Fin N → ℚ) (c : Fin K → ℚ) (start : Option (Mat N K)) :
    round_robin P w c start (some []) = round_robin P w c start none := rfl

/-- C1: for every valid problem instance (symmetric profit matrix, strictly
positive weights, nonnegative capacities, at least one knapsack) and every
possible sequence of random choices, each of the four algorithms
constructive_procedure, round_robin, random_assignment and fcs_procedure
succeeds and returns an assignment on which `is_feasible_solution` returns
true (binary, row sums at most 1, loads within the capacities). -/
theorem c1_feasibility_all_algorithms {N K : ℕ}
    (P : Fin N → Fin N → ℚ) (w : Fin N → ℚ) (c : Fin K → ℚ)
    (perm : List (Fin N)) (skip : ℕ → Bool) (pick : ℕ → ℕ)
    (lh : ℕ) (alphaD : ℚ) (drop : ℕ → List (Fin N)) (coin : ℕ → Bool)
    (fuel : ℕ) (Pl : List (List ℚ))
    (hsym : ∀ i j, P i j = P j i) (hw : ∀ i, 0 < w i) (hc : ∀ k, 0 ≤ c k)
    (hK : 0 < K) (hperm : perm.Nodup) (halpha : 0 < alphaD ∧ alphaD < 1)
    (hlh : 1 ≤ lh) :
    (∃ sol, constructive_procedure P w c none = .ok sol ∧
      is_feasible_solution (matrix_to_lists sol) Pl (List.ofFn w)
        (List.ofFn c) false = .ok true) ∧
    (∃ sol, round_robin P w c none none = .ok sol ∧
      is_feasible_solution (matrix_to_lists sol) Pl (List.ofFn w)
        (List.ofFn c) false = .ok true) ∧
    (is_feasible_solution
      (matrix_to_lists (random_assignment P w c perm skip pick)) Pl
      (List.ofFn w) (List.ofFn c) false = .ok true) ∧
    (∃ sol, fcs_procedure P w c none lh alphaD drop coin fuel = .ok sol ∧
      is_feasible_solution (matrix_to_lists sol) Pl (List.ofFn w)
        (List.ofFn c) false = .ok true) := by
  refine ⟨?_, ?_, ?_, ?_⟩
  · obtain ⟨sol, h1, h2, -⟩ := constructive_procedure_none_ok P hc
    exact ⟨sol, h1, feasible_list_ok h2 Pl⟩
  · obtain ⟨sol, h1, h2⟩ := round_robin_none_ok P hc
    exact ⟨sol, h1, feasible_list_ok h2 Pl⟩
  · exact feasible_list_ok (random_assignment_feasible P perm skip pick hperm hc) Pl
  · obtain ⟨s0, sol, -, h1, -, h2, -⟩ := fcs_procedure_ok P none lh alphaD
      drop coin fuel (fun i => le_of_lt (hw i)) hc halpha hlh
    exact ⟨sol, h1, feasible_list_ok h2 Pl⟩

/-- Witness for C1 on a two-item, one-knapsack instance. -/
theorem c1_feasibility_all_algorithms_witness :
    (∃ sol, constructive_procedure (![![1, 0], ![0, 1]] : Fin 2 → Fin 2 → ℚ)
        ![1, 1] (![2] : Fin 1 → ℚ) none = .ok sol ∧
      is_feasible_solution (matrix_to_lists sol) [] (List.ofFn ![1, 1])
        (List.ofFn (![2] : Fin 1 → ℚ)) false = .ok true) ∧
    (∃ sol, round_robin (![![1, 0], ![0, 1]] : Fin 2 → Fin 2 → ℚ) ![1, 1]
        (![2] : Fin 1 → ℚ) none none = .ok sol ∧
      is_feasible_solution (matrix_to_lists sol) [] (List.ofFn ![1, 1])
        (List.ofFn (![2] : Fin 1 → ℚ)) false = .ok true) ∧
    (is_feasible_solution
      (matrix_to_lists (random_assignment (![![1, 0], ![0, 1]] :
        Fin 2 → Fin 2 → ℚ) ![1, 1] (![2] : Fin 1 → ℚ) [0, 1]
        (fun _ => false) (fun _ => 0))) [] (List.ofFn ![1, 1])
      (List.ofFn (![2] : Fin 1 → ℚ)) false = .ok true) ∧
    (∃ sol, fcs_procedure (![![1, 0], ![0, 1]] : Fin 2 → Fin 2 → ℚ) ![1, 1]
        (![2] : Fin 1 → ℚ) none 1 (1 / 2) (fun _ => []) (fun _ => false) 1 =
        .ok sol ∧
      is_feasible_solution (matrix_to_lists sol) [] (List.ofFn ![1, 1])
        (List.ofFn (![2] : Fin 1 → ℚ)) false = .ok true) :=
  c1_feasibility_all_algorithms (![![1, 0], ![0, 1]] : Fin 2 → Fin 2 → ℚ)
    ![1, 1] (![2] : Fin 1 → ℚ) [0, 1] (fun _ => false) (fun _ => 0) 1 (1 / 2)
    (fun _ => []) (fun _ => false) 1 [] (by decide) (by decide) (by decide)
    (by decide) (by decide) (by decide) (by decide)

/-- C5: for every valid starting assignment (binary, capacity-respecting,
of the right shape), the assignments returned by constructive_procedure and
by round_robin keep every placed entry of the starting assignment: every 1
of the start is still a 1 of the result. -/
theorem c5_superset_of_starting {N K : ℕ} (P : Fin N → Fin N → ℚ)
    (w : Fin N → ℚ) (c : Fin K → ℚ) (start : Mat N K)
    (orderArg : Option (List ℕ)) (hB : Binary start) (hR : RowSumOk start)
    (hload : ∀ k, knapsack_load w start k ≤ c k)
    (horder : ∀ n ∈ orderArg.getD [], n < K) :
    (∃ sol, constructive_procedure P w c (some start) = .ok sol ∧
      ∀ i k, start i k = 1 → sol i k = 1) ∧
    (∃ sol, round_robin P w c (some start) orderArg = .ok sol ∧
      ∀ i k, start i k = 1 → sol i k = 1) := by
  constructor
  · obtain ⟨sol, h1, -, h3, -⟩ := constructive_procedure_some_ok P hB hR hload
    exact ⟨sol, h1, h3⟩
  · obtain ⟨sol, h1, -, h3⟩ := round_robin_some_ok P orderArg hB hR hload horder
    exact ⟨sol, h1, h3⟩

/-- Witness for C5 with item 0 pre-placed in the single knapsack. -/
theorem c5_superset_of_starting_witness :
    (∃ sol, constructive_procedure (![![1, 0], ![0, 1]] : Fin 2 → Fin 2 → ℚ)
        ![1, 1] (![2] : Fin 1 → ℚ) (some (![![1], ![0]] : Mat 2 1)) =
        .ok sol ∧
      ∀ i k, (![![1], ![0]] : Mat 2 1) i k = 1 → sol i k = 1) ∧
    (∃ sol, round_robin (![![1, 0], ![0, 1]] : Fin 2 → Fin 2 → ℚ) ![1, 1]
        (![2] : Fin 1 → ℚ) (some (![![1], ![0]] : Mat 2 1)) none = .ok sol ∧
      ∀ i k, (![![1], ![0]] : Mat 2 1) i k = 1 → sol i k = 1) :=
  c5_superset_of_starting (![![1, 0], ![0, 1]] : Fin 2 → Fin 2 → ℚ) ![1, 1]
    (![2] : Fin 1 → ℚ) (![![1], ![0]] : Mat 2 1) none (by decide) (by decide)
    (by decide) (by decide)

/-- C6: for a symmetric profit matrix, strictly positive weights and a
binary assignment with row sums at most 1, value_density(i, k) equals
(1/w_i) * (p_ii + sum of p_ij over the items j currently assigned to k with
j distinct from i), for every item (assigned or not); the reduced output is
exactly the list of rows of the unassigned items (the items with no
assignment) paired with those items' indices. -/
theorem c6_value_density_formula {N K : ℕ} (P : Fin N → Fin N → ℚ)
    (w : Fin N → ℚ) (A : Mat N K) (hsym : ∀ i j, P i j = P j i)
    (hw : ∀ i, 0 < w i) (hB : Binary A) (hR : RowSumOk A) :
    (∀ i k, value_density P w A i k =
      (1 / w i) * (P i i + ∑ j, if j ≠ i ∧ A j k = 1 then P i j else 0)) ∧
    (∀ i : Fin N, i ∈ (value_density_reduced P w A).2 ↔ ∀ k, A i k ≠ 1) ∧
    (value_density_reduced P w A).1 =
      ((value_density_reduced P w A).2).map
        (fun i => fun k =>
          (1 / w i) * (P i i + ∑ j, if j ≠ i ∧ A j k = 1 then P i j else 0)) := by
  refine ⟨fun i k => value_density_formula hB i k, ?_, ?_⟩
  · intro i
    show i ∈ unassigned_items A ↔ _
    rw [mem_unassigned_items]
    constructor
    · intro h k
      rw [h k]
      norm_num
    · intro h k
      rcases hB i k with h0 | h1
      · exact h0
      · exact absurd h1 (h k)
  · show (unassigned_items A).map (fun i => value_density P w A i) = _
    apply List.map_congr_left
    intro i _
    funext k
    exact value_density_formula hB i k

/-- Witness for C6 on a two-item, one-knapsack instance with item 1
assigned. -/
theorem c6_value_density_formula_witness :
    (∀ i k, value_density (![![1, 2], ![2, 3]] : Fin 2 → Fin 2 → ℚ) ![1, 2]
        (![![0], ![1]] : Mat 2 1) i k =
      (1 / (![1, 2] : Fin 2 → ℚ) i) *
        ((![![1, 2], ![2, 3]] : Fin 2 → Fin 2 → ℚ) i i +
          ∑ j, if j ≠ i ∧ (![![0], ![1]] : Mat 2 1) j k = 1 then
            (![![1, 2], ![2, 3]] : Fin 2 → Fin 2 → ℚ) i j else 0)) ∧
    (∀ i : Fin 2, i ∈ (value_density_reduced (![![1, 2], ![2, 3]] :
        Fin 2 → Fin 2 → ℚ) ![1, 2] (![![0], ![1]] : Mat 2 1)).2 ↔
      ∀ k, (![![0], ![1]] : Mat 2 1) i k ≠ 1) ∧
    (value_density_reduced (![![1, 2], ![2, 3]] : Fin 2 → Fin 2 → ℚ) ![1, 2]
        (![![0], ![1]] : Mat 2 1)).1 =
      ((value_density_reduced (![![1, 2], ![2, 3]] : Fin 2 → Fin 2 → ℚ)
          ![1, 2] (![![0], ![1]] : Mat 2 1)).2).map
        (fun i => fun k =>
          (1 / (![1, 2] : Fin 2 → ℚ) i) *
            ((![![1, 2], ![2, 3]] : Fin 2 → Fin 2 → ℚ) i i +
              ∑ j, if j ≠ i ∧ (![![0], ![1]] : Mat 2 1) j k = 1 then
                (![![1, 2], ![2, 3]] : Fin 2 → Fin 2 → ℚ) i j else 0)) :=
  c6_value_density_formula (![![1, 2], ![2, 3]] : Fin 2 → Fin 2 → ℚ) ![1, 2]
    (![![0], ![1]] : Mat 2 1) (by decide) (by decide) (by decide) (by decide)

/-- C7: for every valid instance and every sequence of random choices, the
total profit of the assignment returned by fcs_procedure is at least the
total profit of the assignment returned by constructive_procedure on the
same inputs with no starting assignment. -/
theorem c7_fcs_never_regresses {N K : ℕ} (P : Fin N → Fin N → ℚ)
    (w : Fin N → ℚ) (c : Fin K → ℚ) (alphaArg : Option ℚ) (lh : ℕ)
    (alphaD : ℚ) (drop : ℕ → List (Fin N)) (coin : ℕ → Bool) (fuel : ℕ)
    (hw : ∀ i, 0 < w i) (hc : ∀ k, 0 ≤ c k)
    (halpha : 0 < alphaArg.getD alphaD ∧ alphaArg.getD alphaD < 1)
    (hlh : 1 ≤ lh) :
    ∃ s0 sol p0 p, constructive_procedure P w c none = .ok s0 ∧
      fcs_procedure P w c alphaArg lh alphaD drop coin fuel = .ok sol ∧
      total_profit_qmkp P s0 = .ok p0 ∧ total_profit_qmkp P sol = .ok p ∧
      p0 ≤ p := by
  obtain ⟨s0, sol, h1, h2, hf0, hf, hle⟩ := fcs_procedure_ok P alphaArg lh
    alphaD drop coin fuel (fun i => le_of_lt (hw i)) hc halpha hlh
  exact ⟨s0, sol, _, _, h1, h2, total_profit_qmkp_ok P hf0.1,
    total_profit_qmkp_ok P hf.1, hle⟩

/-- Witness for C7 on a two-item, one-knapsack instance. -/
theorem c7_fcs_never_regresses_witness :
    ∃ s0 sol p0 p,
      constructive_procedure (![![1, 0], ![0, 1]] : Fin 2 → Fin 2 → ℚ)
        ![1, 1] (![2] : Fin 1 → ℚ) none = .ok s0 ∧
      fcs_procedure (![![1, 0], ![0, 1]] : Fin 2 → Fin 2 → ℚ) ![1, 1]
        (![2] : Fin 1 → ℚ) none 1 (1 / 2) (fun _ => []) (fun _ => false) 1 =
        .ok sol ∧
      total_profit_qmkp (![![1, 0], ![0, 1]] : Fin 2 → Fin 2 → ℚ) s0 =
        .ok p0 ∧
      total_profit_qmkp (![![1, 0], ![0, 1]] : Fin 2 → Fin 2 → ℚ) sol =
        .ok p ∧ p0 ≤ p :=
  c7_fcs_never_regresses (![![1, 0], ![0, 1]] : Fin 2 → Fin 2 → ℚ) ![1, 1]
    (![2] : Fin 1 → ℚ) none 1 (1 / 2) (fun _ => []) (fun _ => false) 1
    (by decide) (by decide) (by decide) (by decide)

end QMKPy
